import Mathlib


/-
Verification of brownie/project/compiler/solidity.py (coverage-data synthesis).

The Python source is shallowly embedded below.  Python `str` values are kept as
Lean `String` except for the raw bytecode in `format_link_references`, where a
`List Char` is used so that positional slicing lemmas are available (a Python
string is a sequence of characters, so this is a faithful embedding).  Python
`dict`s are embedded as insertion-ordered association lists: assignment updates
the first occurrence of the key in place or appends a fresh key at the end,
matching CPython dict semantics.  Python exceptions that are not caught by a
`try` block in the source are embedded as `Except.error`; exceptions that the
source catches (the `except (KeyError, IndexError, StopIteration)` around the
statement attribution block) are embedded as `Option` fallthroughs.
-/

/-- Python negative-index-aware list access: `l[i]` returns `none` exactly when
CPython would raise `IndexError`. -/
def pyGet (l : List α) (i : Int) : Option α :=
  if i < 0 then
    let j : Int := (l.length : Int) + i
    if j < 0 then none else l[j.toNat]?
  else l[i.toNat]?


/-- First value bound to key `k` in an association list (Python `d[k]`,
`none` when CPython would raise `KeyError`). -/
def assocGet [DecidableEq α] (l : List (α × β)) (k : α) : Option β :=
  (l.find? (fun kv => decide (kv.1 = k))).map (·.2)


/-- Python `d[k] = v`: update the first occurrence of `k` in place, otherwise
append the fresh key at the end (CPython dicts preserve insertion order). -/
def assocSet [DecidableEq α] : List (α × β) → α → β → List (α × β)
  | [], k, v => [(k, v)]
  | kv :: rest, k, v => if kv.1 = k then (k, v) :: rest else kv :: assocSet rest k v


/-- Python `del d[k]`: drop the first occurrence of key `k`. -/
def assocDel [DecidableEq α] : List (α × β) → α → List (α × β)
  | [], _ => []
  | kv :: rest, k => if kv.1 = k then rest else kv :: assocDel rest k


/-! ## §4.7 Library link placeholder normalization (`_format_link_references`) -/

/-- The Python format expression `f"{n[:36]:_<36}"`: the name truncated to 36
characters and left-aligned in a field of width 36 padded with underscores
(so padding is appended on the right). -/
def formatName (n : List Char) : List Char :=
  n.take 36 ++ List.replicate (36 - (n.take 36).length) '_'


/-- The canonical placeholder written over each link reference:
`__` ++ formatted name ++ `__` (40 characters in total). -/
def placeholderOf (n : List Char) : List Char :=
  ['_', '_'] ++ formatName n ++ ['_', '_']


/-- One assignment of the loop body of `_format_link_references`
(solidity.py line 267): `bytecode = f"{bytecode[:loc]}__{n[:36]:_<36}__{bytecode[loc+40:]}"`.
Python slices clamp, exactly like `List.take` and `List.drop`. -/
def writeRef (bc : List Char) (n : List Char) (loc : Nat) : List Char :=
  bc.take loc ++ placeholderOf n ++ bc.drop (loc + 40)


/-- `_format_link_references` (solidity.py lines 260-268).  The input
`refs` models the first flattening `[(k, x) for v in ... for k, x in v.items()]`:
one `(symbol name, list of byte offsets)` pair per link reference symbol.
The loop then runs over `[(i[0], x["start"] * 2) for i in refs for x in i[1]]`. -/
def format_link_references (bc : List Char) (refs : List (List Char × List Nat)) : List Char :=
  (refs.flatMap (fun r => r.2.map (fun st => (r.1, st * 2)))).foldl
    (fun b nl => writeRef b nl.1 nl.2) bc


/-- The loop of `_format_link_references` over the flattened reference list. -/
def foldRefs (L : List (List Char × Nat)) (bc : List Char) : List Char :=
  L.foldl (fun b nl => writeRef b nl.1 nl.2) bc


/-- A position is outside every 40-character window touched by the loop. -/
def outsideWindows (L : List (List Char × Nat)) (j : Nat) : Prop :=
  ∀ nl ∈ L, ¬ (nl.2 ≤ j ∧ j < nl.2 + 40)


/-! ## §4.3 Branch extraction (`_get_recursive_branches` and helpers)

The solcast AST surface used by `_get_recursive_branches` is embedded as a
typed expression tree.  Each node carries a numeric id so that distinct AST
node objects (Python object identity) are distinct Lean values. -/

inductive Expr where
  | ident : Nat → String → Expr
  | unary : Nat → Expr → Expr
  | binop : Nat → String → String → Expr → Expr → Expr
deriving Repr, DecidableEq


/-- The solcast `nodeType` attribute. -/
def Expr.nodeType : Expr → String
  | .ident _ _ => "Identifier"
  | .unary _ _ => "UnaryOperation"
  | .binop _ _ _ _ _ => "BinaryOperation"


/-- The filter tuple used throughout `_get_recursive_branches`: a
`BinaryOperation` whose `typeDescriptions.typeString` is `bool` and whose
operator is `||` or `&&`. -/
def isBoolBinary : Expr → Bool
  | .binop _ op ty _ _ => ty == "bool" && (op == "||" || op == "&&")
  | _ => false


/-- All descendants of a node, the node itself included
(`children(include_self=True)` on the embedded tree). -/
def subterms : Expr → List Expr
  | .ident i n => [Expr.ident i n]
  | .unary i s => Expr.unary i s :: subterms s
  | .binop i o t l r => Expr.binop i o t l r :: (subterms l ++ subterms r)


/-- `node.children(include_self=True, filters=...)` with the boolean binary filters. -/
def boolBinaries (e : Expr) : List Expr := (subterms e).filter isBoolBinary


/-- Chain of ancestors of `leaf` inside `root`, nearest parent first
(the iteration order of solcast `node.parents`); `none` when `leaf` does not
occur in `root`. -/
def ancChain : Expr → Expr → Option (List Expr)
  | .ident i n, leaf => if Expr.ident i n = leaf then some [] else none
  | .unary i s, leaf =>
      if Expr.unary i s = leaf then some []
      else (ancChain s leaf).map (· ++ [Expr.unary i s])
  | .binop i o t l r, leaf =>
      if Expr.binop i o t l r = leaf then some []
      else
        match ancChain l leaf with
        | some c => some (c ++ [Expr.binop i o t l r])
        | none => (ancChain r leaf).map (· ++ [Expr.binop i o t l r])


/-- `node.parents(depth, bool-BinaryOperation-filter)`: the boolean binary
ancestors of `leaf`, nearest first. -/
def boolParents (root leaf : Expr) : List Expr :=
  ((ancChain root leaf).getD []).filter isBoolBinary


/-- `i.leftExpression == node or node.is_child_of(i.leftExpression)`:
`leaf` is the left operand of `p`, or sits inside it. -/
def onLeftOf (leaf p : Expr) : Bool :=
  match p with
  | .binop _ _ _ l _ => decide (leaf ∈ subterms l)
  | _ => false


/-- `_is_rightmost_operation` (solidity.py lines 533-541). -/
def is_rightmost_operation (root leaf : Expr) : Bool :=
  !((boolParents root leaf).any (onLeftOf leaf))


/-- `_check_left_operator` (solidity.py lines 544-553): the operator of the
nearest boolean-binary parent that has `leaf` on its left side is `||`.
The source raises `StopIteration` when no such parent exists; the function is
only ever called when `_is_rightmost_operation` returned `False`, which
guarantees a match, so the `false` fallback below is unreachable at call sites. -/
def check_left_operator (root leaf : Expr) : Bool :=
  match (boolParents root leaf).find? (onLeftOf leaf) with
  | some (.binop _ op _ _ _) => op == "||"
  | _ => false


/-- The three condition-bearing node shapes fed to `_get_recursive_branches`:
a `require(...)` `FunctionCall` (the condition is its first argument), an
`IfStatement`, or a `Conditional` (the latter two carry a `condition` field). -/
inductive BaseNode where
  | requireCall : Nat → Expr → BaseNode
  | ifStmt : Expr → BaseNode
  | conditional : Expr → BaseNode
deriving Repr, DecidableEq


/-- `_get_recursive_branches` (solidity.py lines 494-530), returning each
branch leaf together with the `jump` attribute the source sets on it.  The
Python function returns a `set` of nodes; since every leaf is a distinct AST
node, the traversal-ordered list below carries the same content.  For a
`FunctionCall` the binary search runs over the call node itself, which is not
a `BinaryOperation`, so its boolean-binary descendants are exactly those of
the argument. -/
def get_recursive_branches (base : BaseNode) : List (Expr × Bool) :=
  let cond := match base with
    | .requireCall _ a => a
    | .ifStmt c => c
    | .conditional c => c
  let isFnCall := match base with
    | .requireCall _ _ => true
    | _ => false
  let jump_is_truthful : Bool := match base with
    | .ifStmt _ => false
    | _ => true
  let all_binaries := boolBinaries cond
  if all_binaries.isEmpty then
    let node :=
      if isFnCall then cond
      else match cond with
        | .unary _ s => s
        | c => c
    [(node, jump_is_truthful)]
  else
    (all_binaries.flatMap (fun b =>
        match b with
        | .binop _ _ _ l r => [l, r]
        | _ => [])).foldl
      (fun acc n =>
        if !(boolBinaries n).isEmpty then acc
        else
          let j := if is_rightmost_operation cond n then jump_is_truthful
                   else check_left_operator cond n
          let n := match n with
            | .unary _ s => s
            | other => other
          acc ++ [(n, j)]) []


/-- The concrete `require(a && b)` condition of claim C4: two distinct
identifier leaves joined by a boolean `&&`. -/
def c4a : Expr := Expr.ident 0 "a"


def c4b : Expr := Expr.ident 1 "b"


def c4cond : Expr := Expr.binop 2 "&&" "bool" c4a c4b


def c4base : BaseNode := BaseNode.requireCall 3 c4cond


/-! ## §4.1-4.6 Instruction walker (`_generate_coverage_data`)

The walker is a lock-step state machine over the expanded source map and the
opcode token deque.  The record built for the current pair is threaded as an
explicit value `r`; the Python list `pc_list` therefore appears here as
`st.pcList` (the already-completed records) and the Python accesses translate
as `pc_list[-1] = r`, `pc_list[-2] = pyGet st.pcList (-1)`,
`pc_list[-8] = pyGet st.pcList (-7)`, `pc_list[-4:-1] = the last three
completed records`, `len(pc_list) - 1 = st.pcList.length`. -/

/-- One expanded source map entry `[start, stop, contract_id, jump code]`. -/
structure SourceEntry where
  start : Int
  length : Int
  file : Int
  jump : String
deriving Repr, DecidableEq


/-- One entry of `pc_list`: the Python dict with key `"op"` and `"pc"` always
present and every other key optional.  `first_revert` and `jump_revert` are
only ever set to `True` by the source, so they are embedded as `Bool` fields
defaulting to `false`. -/
structure InsRecord where
  op : String
  pc : Nat
  jump : Option String := none
  value : Option String := none
  path : Option String := none
  offset : Option (Int × Int) := none
  fn : Option String := none
  statement : Option Nat := none
  branch : Option Nat := none
  dev : Option String := none
  first_revert : Bool := false
  jump_revert : Bool := false
deriving Repr, DecidableEq


/-- The read-only AST query surface consumed by the walker (solcast source
nodes, an external collaborator).  `none` results model the exceptions the
corresponding Python expression raises:
* `srcPath cid`: `source_nodes[cid].absolutePath`; `none` is an uncaught `KeyError`.
* `fnName cid offset`: `_get_fn_full_name(source_nodes[cid], offset)`; `none`
  is the `IndexError` of `children(...)[0]`, caught by the walker's `try`.
* `invalidNode cid offset`: `(nodeType, operator)` of the first node covering
  `offset`; `none` is an uncaught `IndexError`.
* `revertFn path fnOffset`: the offsets of the argument-less `revert()` calls
  inside the `FunctionDefinition` at `fnOffset`, in source order; `none` is an
  uncaught `StopIteration`/`IndexError` of the node lookups. -/
structure AstEnv where
  srcPath : Int → Option String
  fnName : Int → Int × Int → Option String
  invalidNode : Int → Int × Int → Option (String × String)
  revertFn : String → Int × Int → Option (List (Int × Int))


/-- The mutable state of the walker loop. -/
instance decEqStmtInner : DecidableEq (List (Nat × (Int × Int))) := inferInstance


instance decEqStmtFnMap : DecidableEq (List (String × List (Nat × (Int × Int)))) :=
  inferInstance


instance decEqStmtMap :
    DecidableEq (List (String × List (String × List (Nat × (Int × Int))))) := inferInstance


instance decEqBrInner : DecidableEq (List (Nat × (Int × Int × Bool))) := inferInstance


instance decEqBrFnMap : DecidableEq (List (String × List (Nat × (Int × Int × Bool)))) :=
  inferInstance


instance decEqBrMap :
    DecidableEq (List (String × List (String × List (Nat × (Int × Int × Bool))))) :=
  inferInstance


instance decEqRevertMap : DecidableEq (List ((String × (Int × Int)) × List Nat)) :=
  inferInstance


instance decEqBrActiveInner : DecidableEq (List ((Int × Int) × Nat)) := inferInstance


instance decEqBrActive : DecidableEq (List (String × List ((Int × Int) × Nat))) :=
  inferInstance


instance decEqBrSetInner : DecidableEq (List ((Int × Int) × (Nat × Nat))) := inferInstance


instance decEqBrSet : DecidableEq (List (String × List ((Int × Int) × (Nat × Nat)))) :=
  inferInstance


structure WalkSt where
  opcodes : List String
  count : Nat
  pc : Nat
  pcList : List InsRecord
  revertMap : List ((String × (Int × Int)) × List Nat)
  fallbackHexstr : String
  branchActive : List (String × List ((Int × Int) × Nat))
  branchSet : List (String × List ((Int × Int) × (Nat × Nat)))
  stmtNodes : List (String × List (Int × Int))
  statementMap : List (String × List (String × List (Nat × (Int × Int))))
deriving Repr, DecidableEq


/-- A loop iteration that ends early (`continue`): only the opcode deque, the
program counter, the fallback string and the record list change. -/
def stepDone (st : WalkSt) (ops : List String) (pc : Nat) (fb : String)
    (pl : List InsRecord) : WalkSt :=
  { st with opcodes := ops, pc := pc, fallbackHexstr := fb, pcList := pl }


/-- Python `int(s)` on a decimal digit string (`ValueError`, hence `none`,
on anything else; the source only ever applies it to opcode-mnemonic
suffixes, which carry no sign or whitespace). -/
def pyIntDec (s : String) : Option Nat :=
  if s.data ≠ [] ∧ s.data.all (fun c => decide (48 ≤ c.toNat) && decide (c.toNat ≤ 57)) then
    some (s.data.foldl (fun n c => n * 10 + (c.toNat - 48)) 0)
  else none


/-- Python `str.split(sep)` with a one-character separator: split at every
occurrence, keeping empty pieces. -/
def splitChars (sep : Char) (l : List Char) : List (List Char) :=
  l.foldr (fun c acc =>
    match acc with
    | [] => [[c]]
    | cur :: rest => if c = sep then [] :: cur :: rest else (c :: cur) :: rest) [[]]


/-- `s.split(sep)` as a list of strings. -/
def pySplit (s : String) (sep : Char) : List String :=
  (splitChars sep s.data).map (fun l => ⟨l⟩)


/-- `"0x" + hex(n).upper()[2:]` (solidity.py line 319).  For a negative
argument CPython yields `"-0x..."`, whose uppercase tail after dropping two
characters starts with `"X"`. -/
def pyHexValue (n : Int) : String :=
  if n < 0 then "0x" ++ "X" ++ ⟨(Nat.toDigits 16 n.natAbs).map Char.toUpper⟩
  else "0x" ++ ⟨(Nat.toDigits 16 n.toNat).map Char.toUpper⟩


/-- Modelled from the spec: `is_inside_offset` lives in
`brownie/project/sources.py`, which is not part of the sources under
verification; per the spec the current offset must be contained within the
statement offset. -/
def is_inside_offset (inner outer : Int × Int) : Bool :=
  decide (outer.1 ≤ inner.1) && decide (inner.1 ≤ inner.2) && decide (inner.2 ≤ outer.2)


/-- Statement attribution (solidity.py lines 375-389, the body of the `try`).
Every exception this block can raise (`IndexError` on `pc_list[-2]`,
`KeyError` on a missing `"fn"`/dict key, `StopIteration` from `next`) is
caught by the `except` clause, so each failing lookup falls through with the
state unchanged.  `offV` is the offset variable in scope at line 377, which
is the loop variable leaked by the `for` on line 364 whenever the JUMPI arm
ran. -/
def stmtAttr (env : AstEnv) (file : Int) (path : String) (offV : Int × Int)
    (prevRec : Option InsRecord)
    (sn : List (String × List (Int × Int)))
    (sm : List (String × List (String × List (Nat × (Int × Int)))))
    (count : Nat) (r : InsRecord) :
    (List (String × List (Int × Int))) ×
    (List (String × List (String × List (Nat × (Int × Int))))) × Nat × InsRecord :=
  match prevRec with
  | none => (sn, sm, count, r)
  | some pr =>
    if pr.offset = some offV then
      match pr.fn with
      | none => (sn, sm, count, r)
      | some f => (sn, sm, count, { r with fn := some f })
    else
      match env.fnName file offV with
      | none => (sn, sm, count, r)
      | some f =>
        let r := { r with fn := some f }
        match assocGet sn path with
        | none => (sn, sm, count, r)
        | some stmts =>
          match stmts.find? (fun i => is_inside_offset offV i) with
          | none => (sn, sm, count, r)
          | some so =>
            let sn := assocSet sn path (stmts.erase so)
            match assocGet sm path with
            | none => (sn, sm, count, r)
            | some fm =>
              let inner := (assocGet fm f).getD []
              let sm := assocSet sm path (assocSet fm f (assocSet inner count so))
              (sn, sm, count + 1, { r with statement := some count })


/-- Branch marker tracking (solidity.py lines 362-373).  Returns the updated
active/set tables together with the value of the Python variable `offset`
after the block: the `for offset in branch_active[path]` loop on line 364
rebinds it to the last iterated key. -/
def branchTrack (bn : String → List ((Int × Int) × Bool)) (path : String)
    (offset : Int × Int) (isJumpi : Bool) (idx : Nat)
    (active : List (String × List ((Int × Int) × Nat)))
    (bset : List (String × List ((Int × Int) × (Nat × Nat)))) :
    Except String
      ((List (String × List ((Int × Int) × Nat))) ×
       (List (String × List ((Int × Int) × (Nat × Nat)))) × (Int × Int)) :=
  match assocGet active path with
  | none => .error "KeyError: branch_active"
  | some act =>
    if act ≠ [] ∧ isJumpi then
      match assocGet bset path with
      | none => .error "KeyError: branch_set"
      | some bs =>
        let bs := act.foldl (fun b oi => assocSet b oi.1 (oi.2, idx)) bs
        let leaked := ((act.getLast?).map (·.1)).getD offset
        .ok (assocSet active path [], assocSet bset path bs, leaked)
    else
      if offset ∈ (bn path).map Prod.fst then
        match assocGet bset path with
        | none => .error "KeyError: branch_set"
        | some bs =>
          let bs := if (assocGet bs offset).isSome then assocDel bs offset else bs
          .ok (assocSet active path (assocSet act offset idx), assocSet bset path bs, offset)
      else .ok (active, bset, offset)


/-- Revert-jump tracking (solidity.py lines 390-396): an instruction whose
decoded value equals the detected shared-revert address and whose next opcode
token is a jump is recorded in the revert map.  Peeking `opcodes[0]` on an
exhausted deque raises `IndexError`. -/
def revertTrack (r : InsRecord) (fb : String) (opsAfter : List String)
    (rm : List ((String × (Int × Int)) × List Nat)) (lenAfter : Nat) :
    Except String (List ((String × (Int × Int)) × List Nat)) :=
  match r.value with
  | none => .ok rm
  | some v =>
    if v = fb then
      match opsAfter with
      | [] => .error "IndexError: deque index out of range"
      | nxt :: _ =>
        if nxt = "JUMP" ∨ nxt = "JUMPI" then
          match r.path, r.offset with
          | some p, some o =>
            .ok (assocSet rm (p, o) ((assocGet rm (p, o)).getD [] ++ [lenAfter]))
          | _, _ => .error "KeyError: path or offset"
        else .ok rm
    else .ok rm


/-- Error messages for `INVALID` opcodes (solidity.py lines 351-360): look
up the innermost AST node covering the offset; `children(...)[0]` raises an
uncaught `IndexError` when there is none. -/
def invalidAnnot (env : AstEnv) (file : Int) (offset : Int × Int)
    (r : InsRecord) : Except String InsRecord :=
  if r.op = "INVALID" then
    match env.invalidNode file offset with
    | none => .error "IndexError: list index out of range"
    | some nt =>
      if nt.1 = "IndexAccess" then
        .ok { r with dev := some "Index out of range" }
      else if nt.1 = "BinaryOperation" then
        if nt.2 = "/" then .ok { r with dev := some "Division by zero" }
        else if nt.2 = "%" then .ok { r with dev := some "Modulus by zero" }
        else .ok r
      else .ok r
  else .ok r


/-- The remainder of one loop iteration after the opcode pop, the shared
fallback-revert detection and the PUSH-immediate consumption: record field
`r`, remaining opcode deque `ops`, advanced program counter `pc`, and updated
fallback string `fb` are already determined (solidity.py lines 330-396). -/
def finishStep (env : AstEnv) (bn : String → List ((Int × Int) × Bool))
    (st : WalkSt) (s : SourceEntry) (r : InsRecord) (ops : List String)
    (pc : Nat) (fb : String) : Except String WalkSt :=
  -- set contract path (-1 means none), lines 330-341
  if s.file = -1 then
    if r.op = "REVERT" then
      match pyGet st.pcList (-7) with
      | none => .error "IndexError: list index out of range"
      | some r8 =>
        if r8.op = "CALLVALUE" then
          match r8.offset with
          | none => .error "KeyError: offset"
          | some o8 =>
            match r8.path with
            | none => .error "KeyError: path"
            | some p8 =>
              .ok (stepDone st ops pc fb (st.pcList ++
                [{ r with dev := some "Cannot send ether to nonpayable function",
                          fn := some (r8.fn.getD "<unknown>"),
                          offset := some o8, path := some p8 }]))
        else .ok (stepDone st ops pc fb (st.pcList ++ [r]))
    else .ok (stepDone st ops pc fb (st.pcList ++ [r]))
  else
    match env.srcPath s.file with
    | none => .error "KeyError: source_nodes"
    | some path =>
      -- set source offset (-1 means none), lines 345-347; the record carries
      -- the path (line 343) and, past the guard, the offset (line 349)
      if s.start = -1 then
        .ok (stepDone st ops pc fb (st.pcList ++ [{ r with path := some path }]))
      else
        -- error messages for INVALID opcodes, lines 351-360
        match invalidAnnot env s.file (s.start, s.start + s.length)
            { r with path := some path,
                     offset := some (s.start, s.start + s.length) } with
        | .error e => .error e
        | .ok rA =>
          -- branch markers, lines 362-373
          match branchTrack bn path (s.start, s.start + s.length) (rA.op = "JUMPI")
              st.pcList.length st.branchActive st.branchSet with
          | .error e => .error e
          | .ok (active, bset, offV) =>
            -- statement attribution inside try (lines 375-389), then
            -- revert-jump tracking (lines 390-396) on the attributed record
            match revertTrack
                (stmtAttr env s.file path offV st.pcList.getLast?
                  st.stmtNodes st.statementMap st.count rA).2.2.2
                fb ops st.revertMap (st.pcList.length + 1) with
            | .error e => .error e
            | .ok rm =>
              .ok { opcodes := ops,
                    count := (stmtAttr env s.file path offV st.pcList.getLast?
                      st.stmtNodes st.statementMap st.count rA).2.2.1,
                    pc := pc,
                    pcList := st.pcList ++
                      [(stmtAttr env s.file path offV st.pcList.getLast?
                        st.stmtNodes st.statementMap st.count rA).2.2.2],
                    revertMap := rm, fallbackHexstr := fb,
                    branchActive := active, branchSet := bset,
                    stmtNodes := (stmtAttr env s.file path offV st.pcList.getLast?
                      st.stmtNodes st.statementMap st.count rA).1,
                    statementMap := (stmtAttr env s.file path offV st.pcList.getLast?
                      st.stmtNodes st.statementMap st.count rA).2.1 }


/-- The shared fallback-revert condition (solidity.py lines 311-316): no
declared fallback, address still unassigned, the popped opcode is `REVERT`
and the three preceding records' ops are `JUMPDEST, PUSH1, DUP1`
(`pc_list[-4:-1]`, which here is the tail of the completed record list). -/
def fbHitOf (hasFallback : Bool) (st : WalkSt) (op : String) : Bool :=
  (!hasFallback) && (st.fallbackHexstr == "unassigned") && (op == "REVERT")
    && (((st.pcList.drop (st.pcList.length - 3)).map (·.op))
          == ["JUMPDEST", "PUSH1", "DUP1"])


/-- The fallback address string after lines 311-319. -/
def fbStrOf (hasFallback : Bool) (st : WalkSt) (op : String) : String :=
  if fbHitOf hasFallback st op then pyHexValue ((st.pc : Int) - 4)
  else st.fallbackHexstr


/-- The record after lines 309-323: op and pc at creation, then the
conditional `first_revert` flag and jump-code updates, folded into one
literal (each field guarded by exactly the condition of its source line). -/
def stepRecord (hasFallback : Bool) (st : WalkSt) (s : SourceEntry)
    (op : String) : InsRecord :=
  { op := op, pc := st.pc,
    jump := if s.jump ≠ "-" then some s.jump else none,
    first_revert := fbHitOf hasFallback st op }


/-- One iteration of the walker loop (solidity.py lines 306-396): pop the
opcode, run the shared fallback-revert detection, set the jump code, advance
the pc, consume an inlined PUSH immediate, then hand over to `finishStep`.
`opcodes[0]` is peeked before testing for a hex literal, so an exhausted
deque raises `IndexError` here even when the next pair would not need it. -/
def walkStep (env : AstEnv) (bn : String → List ((Int × Int) × Bool))
    (hasFallback : Bool) (st : WalkSt) (s : SourceEntry) : Except String WalkSt :=
  match st.opcodes with
  | [] => .error "IndexError: pop from an empty deque"
  | op :: ops1 =>
    match ops1 with
    | [] => .error "IndexError: deque index out of range"
    | v :: ops2 =>
      if v.take 2 = "0x" then
        match pyIntDec (op.drop 4) with
        | none => .error "ValueError: invalid literal for int"
        | some w =>
          finishStep env bn st s { stepRecord hasFallback st s op with value := some v }
            ops2 (st.pc + 1 + w) (fbStrOf hasFallback st op)
      else
        finishStep env bn st s (stepRecord hasFallback st s op) ops1 (st.pc + 1)
          (fbStrOf hasFallback st op)


/-- The `while source_map:` loop (solidity.py line 306). -/
def walkLoop (env : AstEnv) (bn : String → List ((Int × Int) × Bool))
    (hasFallback : Bool) : List SourceEntry → WalkSt → Except String WalkSt
  | [], st => .ok st
  | s :: rest, st =>
    match walkStep env bn hasFallback st s with
    | .error e => .error e
    | .ok st => walkLoop env bn hasFallback rest st


/-- The inner loop of the revert reconciliation post-pass (solidity.py lines
410-415): walk the argument-less `revert()` call offsets of one function in
source order; a call whose offset never appears in the record list claims
`values[0]` — `IndexError` when the candidate list is already empty — and
retroactively rewrites that record. -/
def applyRevertOffsets :
    List InsRecord → List Nat → List (Int × Int) →
    Except String (List InsRecord × List Nat)
  | pl, values, [] => .ok (pl, values)
  | pl, values, off :: rest =>
    if pl.any (fun x => x.offset = some off) then applyRevertOffsets pl values rest
    else
      match values with
      | [] => .error "IndexError: list index out of range"
      | i :: vrest =>
        match pl[i]? with
        | none => .error "IndexError: list index out of range"
        | some ri =>
          applyRevertOffsets
            (pl.set i { ri with offset := some off, jump_revert := true }) vrest rest


/-- The revert reconciliation post-pass (solidity.py lines 398-415), iterating
the revert map in insertion order. -/
def revertPass (env : AstEnv) :
    List InsRecord → List ((String × (Int × Int)) × List Nat) →
    Except String (List InsRecord)
  | pl, [] => .ok pl
  | pl, (key, values) :: rest =>
    match env.revertFn key.1 key.2 with
    | none => .error "IndexError: list index out of range"
    | some offs =>
      match applyRevertOffsets pl values offs with
      | .error e => .error e
      | .ok (pl, _) => revertPass env pl rest


/-- One iteration of the final branch map loop (solidity.py lines 419-429).
An activation record with no resolved `fn` is skipped without consuming an
id; otherwise both paired records receive the shared counter's next value. -/
def branchEntry (bn : String → List ((Int × Int) × Bool))
    (path : String) (offset : Int × Int) (idx : Nat × Nat)
    (pl : List InsRecord)
    (bm : List (String × List (String × List (Nat × (Int × Int × Bool)))))
    (count : Nat) :
    Except String
      (List InsRecord ×
       List (String × List (String × List (Nat × (Int × Int × Bool)))) × Nat) :=
  match pl[idx.1]? with
  | none => .error "IndexError: list index out of range"
  | some r0 =>
    match r0.fn with
    | none => .ok (pl, bm, count)
    | some fn =>
      match (pl.set idx.1 { r0 with branch := some count })[idx.2]? with
      | none => .error "IndexError: list index out of range"
      | some r1 =>
        match (bn path).find? (fun kv => decide (kv.1 = offset)) with
        | none => .error "StopIteration"
        | some nb =>
          match assocGet bm path with
          | none => .error "KeyError: branch_map"
          | some fm =>
            .ok ((pl.set idx.1 { r0 with branch := some count }).set idx.2
                   { r1 with branch := some count },
                 assocSet bm path
                   (assocSet fm fn
                     (assocSet ((assocGet fm fn).getD []) count
                       (offset.1, offset.2, nb.2))),
                 count + 1)


/-- The final branch map loop over the flattened
`[(k, x, y) for k, v in branch_set.items() for x, y in v.items()]`. -/
def branchPass (bn : String → List ((Int × Int) × Bool)) :
    List (String × ((Int × Int) × (Nat × Nat))) →
    List InsRecord →
    List (String × List (String × List (Nat × (Int × Int × Bool)))) → Nat →
    Except String
      (List InsRecord ×
       List (String × List (String × List (Nat × (Int × Int × Bool)))) × Nat)
  | [], pl, bm, count => .ok (pl, bm, count)
  | (path, (offset, idx)) :: rest, pl, bm, count =>
    match branchEntry bn path offset idx pl bm count with
    | .error e => .error e
    | .ok (pl, bm, count) => branchPass bn rest pl bm count


/-- Everything `_generate_coverage_data` has computed when it returns.
`pcList` is the final record list (the pc map is `pcList` keyed by the `pc`
field); `count` is the final value of the shared statement/branch counter;
`revertMap` and `fallbackHexstr` are kept so that the revert-suppression
behaviour is statable. -/
structure CoverageResult where
  pcList : List InsRecord
  statementMap : List (String × List (String × List (Nat × (Int × Int))))
  branchMap : List (String × List (String × List (Nat × (Int × Int × Bool))))
  revertMap : List ((String × (Int × Int)) × List Nat)
  count : Nat
  fallbackHexstr : String
deriving Repr, DecidableEq


/-- The initial walker state (solidity.py lines 283-304): per-path tables
keyed by the source paths of the compilation unit, `pc` and the shared
counter at 0, the fallback address string `"unassigned"`. -/
def initWalkSt (opcodes : List String) (paths : List String)
    (stmts : String → List (Int × Int)) : WalkSt :=
  { opcodes := opcodes, count := 0, pc := 0, pcList := [], revertMap := [],
    fallbackHexstr := "unassigned",
    branchActive := paths.map (fun p => (p, [])),
    branchSet := paths.map (fun p => (p, [])),
    stmtNodes := paths.map (fun p => (p, stmts p)),
    statementMap := paths.map (fun p => (p, [])) }


/-- `_generate_coverage_data` (solidity.py lines 271-432) over the expanded
source map.  `paths` is the path set of the contract and its dependencies,
`stmts` the per-path statement offset sets, `bn` the per-path branch nodes
(offset and the `jump` attribute set by `_get_recursive_branches`). -/
def generate_coverage_data (env : AstEnv) (bn : String → List ((Int × Int) × Bool))
    (paths : List String) (stmts : String → List (Int × Int)) (hasFallback : Bool)
    (sourceMap : List SourceEntry) (opcodes : List String) :
    Except String CoverageResult :=
  match walkLoop env bn hasFallback sourceMap (initWalkSt opcodes paths stmts) with
  | .error e => .error e
  | .ok st =>
    match revertPass env st.pcList st.revertMap with
    | .error e => .error e
    | .ok pl =>
      match branchPass bn
          (st.branchSet.flatMap (fun pv => pv.2.map (fun ov => (pv.1, ov))))
          pl (paths.map (fun p => (p, []))) st.count with
      | .error e => .error e
      | .ok (pl, bm, count) =>
        .ok { pcList := pl, statementMap := st.statementMap, branchMap := bm,
              revertMap := st.revertMap, count := count,
              fallbackHexstr := st.fallbackHexstr }


/-- The pc map of solidity.py line 431: the record list keyed by the `pc`
field (an insertion-ordered dict; the keys are the `pc` values in order). -/
def pcMapOf (res : CoverageResult) : List (Nat × InsRecord) :=
  res.pcList.map (fun r => (r.pc, r))


/-- Modelled from the spec: `expand_source_map` lives in
`brownie/project/compiler/utils.py`, which is not part of the sources under
verification.  Per the spec the compressed source map is `;`-separated with
one entry per instruction, each entry holding up to four `:`-separated fields
`start:length:fileIndex:jumpType`, and an omitted (empty or missing) field
repeats the previous entry's value. -/
def parseSMInt (s : String) : Option Int :=
  match s.data with
  | '-' :: rest => (pyIntDec (String.mk rest)).map (fun n => -(n : Int))
  | _ => (pyIntDec s).map (fun n => (n : Int))


/-- Modelled from the spec: see `parseSMInt`. -/
def expand_source_map (s : String) : List SourceEntry :=
  ((pySplit s ';').foldl
    (fun (acc : List SourceEntry × SourceEntry) piece =>
      let prev := acc.2
      let fields := pySplit piece ':'
      let fval := fun (i : Nat) (old : Int) =>
        match fields[i]? with
        | some str => if str = "" then old else (parseSMInt str).getD old
        | none => old
      let j :=
        match fields[3]? with
        | some str => if str = "" then prev.jump else str
        | none => prev.jump
      let e : SourceEntry :=
        { start := fval 0 prev.start, length := fval 1 prev.length,
          file := fval 2 prev.file, jump := j }
      (acc.1 ++ [e], e))
    ([], { start := -1, length := -1, file := -1, jump := "-" })).1


/-- `_generate_coverage_data` on the raw compiler strings: the guard for
missing opcodes (solidity.py lines 280-281), the source map expansion and the
`opcodes_str.split(" ")` tokenisation (lines 283-284). -/
def generate_coverage_data_str (env : AstEnv)
    (bn : String → List ((Int × Int) × Bool)) (paths : List String)
    (stmts : String → List (Int × Int)) (hasFallback : Bool)
    (sourceMapStr opcodesStr : String) : Except String CoverageResult :=
  if opcodesStr = "" then
    .ok { pcList := [], statementMap := [], branchMap := [], revertMap := [],
          count := 0, fallbackHexstr := "unassigned" }
  else
    generate_coverage_data env bn paths stmts hasFallback
      (expand_source_map sourceMapStr) (pySplit opcodesStr ' ')


/-! ## Derived measures and collectors used by the claims -/

/-- The number of bytecode bytes one record consumes: 1 for the opcode itself
plus, when an inlined PUSH immediate was attached, the byte width
`int(op[4:])` taken from the mnemonic's numeric suffix. -/
def consumedWidth (r : InsRecord) : Nat :=
  1 + (match r.value with
       | some _ => (pyIntDec (r.op.drop 4)).getD 0
       | none => 0)


/-- The sum of consumed widths of a record list. -/
def widthSum (l : List InsRecord) : Nat := (l.map consumedWidth).sum


/-- The pc fields of the list are exactly the running sums of consumed widths
starting from `p`. -/
def pcAligned : Nat → List InsRecord → Prop
  | _, [] => True
  | p, r :: rs => r.pc = p ∧ pcAligned (p + consumedWidth r) rs


/-- The fields of a record that the walker fixes at creation and that no
post-pass may change. -/
def projPC (r : InsRecord) : Nat × String × Option String := (r.pc, r.op, r.value)


/-- The revert flags of a record. -/
def projFlags (r : InsRecord) : Bool × Bool := (r.first_revert, r.jump_revert)


/-- All ids bound in one function-level map of the statement or branch map. -/
def fmIds {τ : Type} (fm : List (String × List (Nat × τ))) : List Nat :=
  fm.flatMap (fun fv => fv.2.map Prod.fst)


/-- All values bound in one function-level map. -/
def fmVals {τ : Type} (fm : List (String × List (Nat × τ))) : List τ :=
  fm.flatMap (fun fv => fv.2.map Prod.snd)


/-- All ids bound anywhere in a `path → fn → id → value` map. -/
def nmapIds {τ : Type} (m : List (String × List (String × List (Nat × τ)))) : List Nat :=
  m.flatMap (fun pv => fmIds pv.2)


/-- The values recorded for one path of a `path → fn → id → value` map. -/
def pathVals {τ : Type} (m : List (String × List (String × List (Nat × τ))))
    (p : String) : List τ :=
  fmVals ((assocGet m p).getD [])


/-- The statement offsets still unconsumed for one path. -/
def remainingStmts (st : WalkSt) (p : String) : List (Int × Int) :=
  (assocGet st.stmtNodes p).getD []


/-- The transition the statement attribution block performs on the
`(stmt_nodes, statement_map, count)` triple: either nothing, or it consumes
the first matching unclaimed statement offset `so` of some path (and, when
the `statement_map[path]` lookup also succeeds, records `count ↦ so` under
the resolved function name and increments the shared counter). -/
def StmtTrans
    (a b : (List (String × List (Int × Int))) ×
           (List (String × List (String × List (Nat × (Int × Int))))) × Nat) : Prop :=
  a = b ∨
  ∃ path stmts so f,
    assocGet a.1 path = some stmts ∧
    so ∈ stmts ∧
    b.1 = assocSet a.1 path (stmts.erase so) ∧
    ((b.2.1 = a.2.1 ∧ b.2.2 = a.2.2) ∨
     (∃ fm, assocGet a.2.1 path = some fm ∧
        b.2.1 = assocSet a.2.1 path
          (assocSet fm f (assocSet ((assocGet fm f).getD []) a.2.2 so)) ∧
        b.2.2 = a.2.2 + 1))


/-! ## Concrete scenario inputs -/

/-- The placeholder as claim C8 words it: the symbol name truncated and
LEFT-padded with underscores to 36 characters between double underscores. -/
def placeholderClaim (n : List Char) : List Char :=
  ['_', '_'] ++ (List.replicate (36 - (n.take 36).length) '_' ++ n.take 36) ++ ['_', '_']


/-- 44 zero characters of bytecode for the link-reference scenarios. -/
def c8bc : List Char := List.replicate 44 '0'


/-- A short library symbol name. -/
def c8name : List Char := ['L', 'i', 'b']


/-- AST surface for the C3 scenario: one file `a.sol` with one function
spanning offset (0, 15). -/
def env3 : AstEnv :=
  { srcPath := fun cid => if cid = 0 then some "a.sol" else none,
    fnName := fun _ off => if is_inside_offset off (0, 15) then some "C.f" else none,
    invalidNode := fun _ _ => none,
    revertFn := fun _ _ => none }


/-- Branch candidates for the C3 scenario: offset 10 (span (10, 15)), with the
`require`-style polarity. -/
def bn3 : String → List ((Int × Int) × Bool) :=
  fun p => if p = "a.sol" then [((10, 15), true)] else []


/-- The C3 source map string from the spec. -/
def c3srcmap : String := "0:10:0:-;10:5:0:i;-1:-1:-1:-"


/-- The C3 opcodes string from the spec. -/
def c3opcodes : String := "PUSH1 0x80 JUMPI STOP"


/-- AST surface for the C1/C2/C7/C10 witness runs: one file `s.sol`, every
in-file offset inside function `C.f`. -/
def envW : AstEnv :=
  { srcPath := fun cid => if cid = 0 then some "s.sol" else none,
    fnName := fun _ _ => some "C.f",
    invalidNode := fun _ _ => none,
    revertFn := fun _ _ => none }


/-- Branch candidate at offset (2, 4) for the witness runs. -/
def bnW : String → List ((Int × Int) × Bool) :=
  fun p => if p = "s.sol" then [((2, 4), true)] else []


/-- Witness source map: a PUSH-carrying record, a statement record that also
activates the branch candidate, and the JUMPI that finalizes it. -/
def smW : List SourceEntry :=
  [{ start := 0, length := 10, file := 0, jump := "-" },
   { start := 2, length := 2, file := 0, jump := "-" },
   { start := 2, length := 2, file := 0, jump := "i" }]


/-- Witness statement sets: one statement offset (0, 10) in `s.sol`. -/
def stmtsW : String → List (Int × Int) :=
  fun p => if p = "s.sol" then [(0, 10)] else []


/-- Witness opcode tokens. -/
def opsW : List String := ["PUSH1", "0x01", "DUP1", "JUMPI", "STOP"]


/-- The fallback value for extracting an `ok` result. -/
def emptyCov : CoverageResult :=
  { pcList := [], statementMap := [], branchMap := [], revertMap := [],
    count := 0, fallbackHexstr := "unassigned" }


/-- The witness run with `has_fallback = False`. -/
def covW : CoverageResult :=
  (generate_coverage_data envW bnW ["s.sol"] stmtsW false smW opsW).toOption.getD emptyCov


/-- The witness run with `has_fallback = True` (for claim C10). -/
def covW10 : CoverageResult :=
  (generate_coverage_data envW bnW ["s.sol"] stmtsW true smW opsW).toOption.getD emptyCov


/-- AST surface for the C5 scenario: one file `c.sol`; the function at source
offset (0, 5) contains two argument-less `revert()` calls, at offsets
(20, 28) and (30, 38), neither of which is mapped to any instruction. -/
def env5 : AstEnv :=
  { srcPath := fun cid => if cid = 0 then some "c.sol" else none,
    fnName := fun _ _ => none,
    invalidNode := fun _ _ => none,
    revertFn := fun p off =>
      if p = "c.sol" ∧ off = (0, 5) then some [(20, 28), (30, 38)] else none }


/-- C5 source map: the selector tail `JUMPDEST PUSH1 DUP1 REVERT`, then the
forwarded revert `PUSH1 0x0 JUMP`. -/
def sm5 : List SourceEntry :=
  [{ start := 0, length := 1, file := 0, jump := "-" },
   { start := 0, length := 1, file := 0, jump := "-" },
   { start := 0, length := 1, file := 0, jump := "-" },
   { start := 0, length := 1, file := 0, jump := "-" },
   { start := 0, length := 5, file := 0, jump := "-" },
   { start := 0, length := 5, file := 0, jump := "-" }]


/-- C5 opcode tokens. -/
def ops5 : List String :=
  ["JUMPDEST", "PUSH1", "0x00", "DUP1", "REVERT", "PUSH1", "0x0", "JUMP", "STOP"]


/-- A tiny record list for the C5 amended witness: a JUMPDEST and the JUMP
that carries the forwarded-revert candidate. -/
def pl5w : List InsRecord :=
  [{ op := "JUMPDEST", pc := 0 }, { op := "JUMP", pc := 1 }]


/-- Walker state for the C6 witness: first opcode REVERT, no records yet. -/
def stC6 : WalkSt := initWalkSt ["REVERT", "STOP"] ["p.sol"] (fun _ => [])


/-- Source entry with file index -1 for the C6 witness. -/
def sC6 : SourceEntry := { start := -1, length := -1, file := -1, jump := "-" }


/-- Trivial AST surface (every lookup fails). -/
def envT : AstEnv :=
  { srcPath := fun _ => none, fnName := fun _ _ => none,
    invalidNode := fun _ _ => none, revertFn := fun _ _ => none }


/-- The walk-loop invariant for claim C1. -/
def PcInv (st : WalkSt) : Prop :=
  pcAligned 0 st.pcList ∧ st.pc = widthSum st.pcList


/-- The five fields of a record fixed by the walker and never touched by the
final branch map loop. -/
def projB (r : InsRecord) : Nat × String × Option String × Bool × Bool :=
  (r.pc, r.op, r.value, r.first_revert, r.jump_revert)


/-- The `(stmt_nodes, statement_map, count)` triple threaded through the
statement attribution block. -/
abbrev StmtState :=
  (List (String × List (Int × Int))) ×
  (List (String × List (String × List (Nat × (Int × Int))))) × Nat


/-- Claim C2's statement-side invariant: the ids recorded in the statement
map are a permutation of `0 .. count-1`. -/
def IdInv (t : StmtState) : Prop := (nmapIds t.2.1).Perm (List.range t.2.2)


/-- Claim C7's invariant: per path, the recorded statement offsets are
distinct, disjoint from the unconsumed ones, and the unconsumed ones are
distinct. -/
def ValInv (t : StmtState) : Prop :=
  ∀ p, (pathVals t.2.1 p).Nodup ∧
       (∀ v ∈ pathVals t.2.1 p, v ∉ (assocGet t.1 p).getD []) ∧
       ((assocGet t.1 p).getD []).Nodup


/-- Claim C10's walk invariant: nothing revert-related is ever assigned when
the contract declares a fallback. -/
def FlagInv (st : WalkSt) : Prop :=
  st.fallbackHexstr = "unassigned" ∧ st.revertMap = [] ∧
  ∀ r ∈ st.pcList, r.first_revert = false ∧ r.jump_revert = false


theorem assocGet_nil [DecidableEq α] (k : α) : assocGet ([] : List (α × β)) k = none := rfl


theorem assocGet_cons [DecidableEq α] (kv : α × β) (rest : List (α × β)) (k : α) :
    assocGet (kv :: rest) k = if kv.1 = k then some kv.2 else assocGet rest k := by
  by_cases h : kv.1 = k <;> simp [assocGet, List.find?, h]


theorem assocGet_assocSet_self [DecidableEq α] (l : List (α × β)) (k : α) (v : β) :
    assocGet (assocSet l k v) k = some v := by
  induction l with
  | nil => simp [assocGet, assocSet, List.find?]
  | cons kv rest ih =>
    by_cases h : kv.1 = k
    · simp [assocSet, h, assocGet_cons]
    · simp [assocSet, h, assocGet_cons, ih]


theorem assocGet_assocSet_ne [DecidableEq α] (l : List (α × β)) (k k' : α) (v : β)
    (h : k' ≠ k) : assocGet (assocSet l k v) k' = assocGet l k' := by
  induction l with
  | nil => simp [assocGet, assocSet, List.find?, Ne.symm h]
  | cons kv rest ih =>
    by_cases hk : kv.1 = k
    · rw [assocSet, if_pos hk, assocGet_cons, assocGet_cons, if_neg (by simp [Ne.symm h]),
        if_neg (by rw [hk]; exact fun hc => h hc.symm)]
    · rw [assocSet, if_neg hk, assocGet_cons, assocGet_cons]
      by_cases hk' : kv.1 = k' <;> simp [hk', ih]


theorem assocSet_of_not_mem_keys [DecidableEq α] (l : List (α × β)) (k : α) (v : β)
    (h : k ∉ l.map Prod.fst) : assocSet l k v = l ++ [(k, v)] := by
  induction l with
  | nil => rfl
  | cons kv rest ih =>
    simp only [List.map_cons, List.mem_cons] at h
    push_neg at h
    simp [assocSet, Ne.symm h.1, ih h.2]


theorem formatName_length (n : List Char) : (formatName n).length = 36 := by
  have h : (n.take 36).length ≤ 36 := by
    simp
  simp only [formatName, List.length_append, List.length_replicate]
  omega


theorem placeholderOf_length (n : List Char) : (placeholderOf n).length = 40 := by
  simp [placeholderOf, formatName_length]


theorem writeRef_length (bc : List Char) (n : List Char) (loc : Nat)
    (h : loc + 40 ≤ bc.length) : (writeRef bc n loc).length = bc.length := by
  simp [writeRef, placeholderOf_length]
  omega


/-- Characterisation of a single in-bounds overwrite, position by position. -/
theorem writeRef_getElem? (bc : List Char) (n : List Char) (loc : Nat)
    (h : loc + 40 ≤ bc.length) (j : Nat) :
    (writeRef bc n loc)[j]? =
      if j < loc then bc[j]?
      else if j < loc + 40 then (placeholderOf n)[j - loc]?
      else bc[j]? := by
  have htl : (bc.take loc).length = loc := by
    simp; omega
  have hpl : (placeholderOf n).length = 40 := placeholderOf_length n
  by_cases h1 : j < loc
  · rw [writeRef, if_pos h1, List.append_assoc,
      List.getElem?_append_left (by rw [htl]; exact h1),
      List.getElem?_take_of_lt h1]
  · push_neg at h1
    by_cases h2 : j < loc + 40
    · rw [writeRef, if_neg (by omega), if_pos h2, List.append_assoc,
        List.getElem?_append_right (by omega), htl,
        List.getElem?_append_left (by omega)]
    · push_neg at h2
      rw [writeRef, if_neg (by omega), if_neg (by omega), List.append_assoc,
        List.getElem?_append_right (by omega), htl,
        List.getElem?_append_right (by omega), hpl, List.getElem?_drop]
      congr 1
      omega


theorem format_link_references_eq_foldRefs (bc : List Char)
    (refs : List (List Char × List Nat)) :
    format_link_references bc refs =
      foldRefs (refs.flatMap (fun r => r.2.map (fun st => (r.1, st * 2)))) bc := rfl


theorem foldRefs_length (L : List (List Char × Nat)) (bc : List Char)
    (h : ∀ nl ∈ L, nl.2 + 40 ≤ bc.length) : (foldRefs L bc).length = bc.length := by
  induction L generalizing bc with
  | nil => rfl
  | cons nl rest ih =>
    have h0 : nl.2 + 40 ≤ bc.length := h nl (by simp)
    have hw : (writeRef bc nl.1 nl.2).length = bc.length := writeRef_length bc nl.1 nl.2 h0
    have := ih (writeRef bc nl.1 nl.2) (fun x hx => by rw [hw]; exact h x (by simp [hx]))
    simpa [foldRefs, hw] using this


theorem foldRefs_getElem?_outside (L : List (List Char × Nat)) (bc : List Char) (j : Nat)
    (h : ∀ nl ∈ L, nl.2 + 40 ≤ bc.length) (hout : outsideWindows L j) :
    (foldRefs L bc)[j]? = bc[j]? := by
  induction L generalizing bc with
  | nil => rfl
  | cons nl rest ih =>
    have h0 : nl.2 + 40 ≤ bc.length := h nl (by simp)
    have hw : (writeRef bc nl.1 nl.2).length = bc.length := writeRef_length bc nl.1 nl.2 h0
    have hrec := ih (writeRef bc nl.1 nl.2)
      (fun x hx => by rw [hw]; exact h x (by simp [hx]))
      (fun x hx => hout x (by simp [hx]))
    have hstep : (writeRef bc nl.1 nl.2)[j]? = bc[j]? := by
      have hnot := hout nl (by simp)
      rw [writeRef_getElem? bc nl.1 nl.2 h0 j]
      by_cases h1 : j < nl.2
      · simp [h1]
      · rw [if_neg h1, if_neg (by omega)]
    calc (foldRefs (nl :: rest) bc)[j]? = (foldRefs rest (writeRef bc nl.1 nl.2))[j]? := rfl
      _ = (writeRef bc nl.1 nl.2)[j]? := hrec
      _ = bc[j]? := hstep


theorem foldRefs_congr (L : List (List Char × Nat)) (b1 b2 : List Char)
    (hlen : b1.length = b2.length)
    (hb : ∀ nl ∈ L, nl.2 + 40 ≤ b1.length)
    (hagree : ∀ j, outsideWindows L j → b1[j]? = b2[j]?) :
    foldRefs L b1 = foldRefs L b2 := by
  induction L generalizing b1 b2 with
  | nil =>
    apply List.ext_getElem?
    intro j
    exact hagree j (fun nl h => absurd h (by simp))
  | cons nl rest ih =>
    have h0 : nl.2 + 40 ≤ b1.length := hb nl (by simp)
    have h0' : nl.2 + 40 ≤ b2.length := hlen ▸ h0
    have hw1 := writeRef_length b1 nl.1 nl.2 h0
    have hw2 := writeRef_length b2 nl.1 nl.2 h0'
    have key : foldRefs rest (writeRef b1 nl.1 nl.2) = foldRefs rest (writeRef b2 nl.1 nl.2) := by
      apply ih
      · rw [hw1, hw2, hlen]
      · intro x hx; rw [hw1]; exact hb x (by simp [hx])
      · intro j hj
        rw [writeRef_getElem? b1 nl.1 nl.2 h0 j, writeRef_getElem? b2 nl.1 nl.2 h0' j]
        by_cases h1 : j < nl.2
        · rw [if_pos h1, if_pos h1]
          exact hagree j (fun x hx => by
            rcases List.mem_cons.mp hx with h | h
            · subst h; omega
            · exact hj x h)
        · by_cases h2 : j < nl.2 + 40
          · rw [if_neg h1, if_pos h2, if_neg h1, if_pos h2]
          · rw [if_neg h1, if_neg h2, if_neg h1, if_neg h2]
            exact hagree j (fun x hx => by
              rcases List.mem_cons.mp hx with h | h
              · subst h; omega
              · exact hj x h)
    calc foldRefs (nl :: rest) b1 = foldRefs rest (writeRef b1 nl.1 nl.2) := rfl
      _ = foldRefs rest (writeRef b2 nl.1 nl.2) := key
      _ = foldRefs (nl :: rest) b2 := rfl


theorem foldRefs_idempotent (L : List (List Char × Nat)) (bc : List Char)
    (h : ∀ nl ∈ L, nl.2 + 40 ≤ bc.length) :
    foldRefs L (foldRefs L bc) = foldRefs L bc := by
  have hlen := foldRefs_length L bc h
  apply foldRefs_congr L (foldRefs L bc) bc hlen (fun nl hnl => hlen ▸ h nl hnl)
  intro j hj
  exact foldRefs_getElem?_outside L bc j h hj


/-! ## Step-shape lemmas for the walker -/

theorem stmtAttr_rec_shape (env : AstEnv) (file : Int) (path : String)
    (offV : Int × Int) (prevRec : Option InsRecord) (sn) (sm) (count : Nat)
    (r : InsRecord) :
    ∃ fv sv, (stmtAttr env file path offV prevRec sn sm count r).2.2.2 =
      { r with fn := fv, statement := sv } := by
  unfold stmtAttr
  repeat' split
  all_goals exact ⟨_, _, rfl⟩


theorem stmtAttr_trans (env : AstEnv) (file : Int) (path : String)
    (offV : Int × Int) (prevRec : Option InsRecord) (sn) (sm) (count : Nat)
    (r : InsRecord) :
    StmtTrans (sn, sm, count)
      ((stmtAttr env file path offV prevRec sn sm count r).1,
       (stmtAttr env file path offV prevRec sn sm count r).2.1,
       (stmtAttr env file path offV prevRec sn sm count r).2.2.1) := by
  unfold stmtAttr
  repeat' split
  all_goals try exact Or.inl rfl
  · rename_i x3 f hf x2 stmts hget x1 so hfind x hsm
    exact Or.inr ⟨path, stmts, so, f, hget,
      List.mem_of_find?_eq_some hfind, rfl, Or.inl ⟨rfl, rfl⟩⟩
  · rename_i x3 f hf x2 stmts hget x1 so hfind x fm hsm
    exact Or.inr ⟨path, stmts, so, f, hget,
      List.mem_of_find?_eq_some hfind, rfl, Or.inr ⟨fm, hsm, rfl, rfl⟩⟩


theorem invalidAnnot_rec_shape (env : AstEnv) (file : Int) (offset : Int × Int)
    (r r' : InsRecord) (h : invalidAnnot env file offset r = .ok r') :
    ∃ d, r' = { r with dev := d } := by
  unfold invalidAnnot at h
  repeat' split at h
  all_goals try exact Except.noConfusion h
  all_goals simp only [Except.ok.injEq] at h
  all_goals try (subst h; exact ⟨_, rfl⟩)


theorem revertTrack_ne (r : InsRecord) (fb : String) (ops : List String)
    (rm rm' : List ((String × (Int × Int)) × List Nat)) (n : Nat)
    (hne : ∀ v, r.value = some v → v ≠ fb)
    (h : revertTrack r fb ops rm n = .ok rm') : rm' = rm := by
  unfold revertTrack at h
  repeat' split at h
  all_goals try exact Except.noConfusion h
  all_goals simp only [Except.ok.injEq] at h
  all_goals try exact h.symm
  all_goals simp_all


theorem finishStep_ok_spec (env : AstEnv) (bn : String → List ((Int × Int) × Bool))
    (st : WalkSt) (s : SourceEntry) (r : InsRecord) (ops : List String)
    (pc : Nat) (fb : String) (st' : WalkSt)
    (h : finishStep env bn st s r ops pc fb = .ok st') :
    (∃ r', st'.pcList = st.pcList ++ [r'] ∧ r'.pc = r.pc ∧ r'.op = r.op ∧
       r'.value = r.value ∧ r'.first_revert = r.first_revert ∧
       r'.jump_revert = r.jump_revert) ∧
    st'.opcodes = ops ∧ st'.pc = pc ∧ st'.fallbackHexstr = fb ∧
    StmtTrans (st.stmtNodes, st.statementMap, st.count)
      (st'.stmtNodes, st'.statementMap, st'.count) ∧
    ((∀ v, r.value = some v → v ≠ fb) → st'.revertMap = st.revertMap) := by
  unfold finishStep at h
  repeat' split at h
  all_goals try exact Except.noConfusion h
  all_goals try
    (simp only [Except.ok.injEq] at h
     subst h
     exact ⟨⟨_, rfl, rfl, rfl, rfl, rfl, rfl⟩, rfl, rfl, rfl, Or.inl rfl, fun _ => rfl⟩)
  -- remaining: the main branch, with every match already split
  rename_i hf x2 path hpath hs x1 rDev hInv x0 active bset offV hBT xr rm hRT
  simp only [Except.ok.injEq] at h
  subst h
  obtain ⟨d, hd⟩ := invalidAnnot_rec_shape env s.file (s.start, s.start + s.length)
    _ rDev hInv
  obtain ⟨fv, sv, hshape⟩ := stmtAttr_rec_shape env s.file path offV
    st.pcList.getLast? st.stmtNodes st.statementMap st.count rDev
  refine ⟨⟨_, rfl, ?_, ?_, ?_, ?_, ?_⟩, rfl, rfl, rfl, ?_, ?_⟩
  · rw [hshape, hd]
  · rw [hshape, hd]
  · rw [hshape, hd]
  · rw [hshape, hd]
  · rw [hshape, hd]
  · exact stmtAttr_trans env s.file path offV st.pcList.getLast?
      st.stmtNodes st.statementMap st.count rDev
  · intro hne
    refine revertTrack_ne _ fb ops st.revertMap rm (st.pcList.length + 1) ?_ hRT
    intro v hv
    apply hne v
    rw [hshape, hd] at hv
    exact hv


theorem fbHitOf_of_hasFallback (st : WalkSt) (op : String) :
    fbHitOf true st op = false := by
  simp [fbHitOf]


theorem walkStep_ok_spec (env : AstEnv) (bn : String → List ((Int × Int) × Bool))
    (hf : Bool) (st : WalkSt) (s : SourceEntry) (st' : WalkSt)
    (h : walkStep env bn hf st s = .ok st') :
    ∃ r', st'.pcList = st.pcList ++ [r'] ∧ r'.pc = st.pc ∧
      st'.pc = st.pc + consumedWidth r' ∧
      r'.jump_revert = false ∧
      (∀ v, r'.value = some v → v.take 2 = "0x") ∧
      (hf = true → r'.first_revert = false ∧ st'.fallbackHexstr = st.fallbackHexstr) ∧
      StmtTrans (st.stmtNodes, st.statementMap, st.count)
        (st'.stmtNodes, st'.statementMap, st'.count) ∧
      (hf = true ∧ st.fallbackHexstr = "unassigned" →
         st'.revertMap = st.revertMap ∧ st'.fallbackHexstr = "unassigned") := by
  unfold walkStep at h
  repeat' split at h
  all_goals try exact Except.noConfusion h
  -- the PUSH-immediate branch and the plain branch
  · rename_i o1 op o2 v ops2 hops hhex x w hw
    obtain ⟨⟨r', hpl, hpc, hop', hval, hfr, hjr⟩, hops2, hpc', hfb, htr, hrm⟩ :=
      finishStep_ok_spec env bn st s _ ops2 (st.pc + 1 + w)
        (fbStrOf hf st op) st' h
    have hpcr : r'.pc = st.pc := hpc.trans rfl
    have hop2 : r'.op = op := hop'.trans rfl
    have hval2 : r'.value = some v := hval.trans rfl
    have hfr2 : r'.first_revert = fbHitOf hf st op := hfr.trans rfl
    have hjr2 : r'.jump_revert = false := hjr.trans rfl
    have hfbtrue : hf = true → fbStrOf hf st op = st.fallbackHexstr := by
      intro hhf; subst hhf; simp [fbStrOf, fbHitOf_of_hasFallback]
    refine ⟨r', hpl, hpcr, ?_, hjr2, ?_, ?_, htr, ?_⟩
    · rw [hpc', consumedWidth, hval2, hop2, hw]
      simp only [Option.getD_some]
      omega
    · intro u hu
      rw [hval2] at hu
      simp only [Option.some.injEq] at hu
      subst hu
      exact hhex
    · intro hhf
      refine ⟨?_, by rw [hfb, hfbtrue hhf]⟩
      rw [hfr2]
      subst hhf
      exact fbHitOf_of_hasFallback st op
    · rintro ⟨hhf, hun⟩
      have hne : ∀ u, ({ stepRecord hf st s op with value := some v } : InsRecord).value
          = some u → u ≠ fbStrOf hf st op := by
        intro u hu
        simp only [Option.some.injEq] at hu
        subst hu
        rw [hfbtrue hhf, hun]
        intro hc
        have h2 : ("0x" : String) = "un" := by
          calc ("0x" : String) = v.take 2 := hhex.symm
            _ = "un" := by rw [hc]; rfl
        exact absurd h2 (by decide)
      exact ⟨hrm hne, by rw [hfb, hfbtrue hhf, hun]⟩
  · rename_i o1 op o2 v ops2 hops hhex
    obtain ⟨⟨r', hpl, hpc, hop', hval, hfr, hjr⟩, hops2, hpc', hfb, htr, hrm⟩ :=
      finishStep_ok_spec env bn st s _ (v :: ops2) (st.pc + 1)
        (fbStrOf hf st op) st' h
    have hpcr : r'.pc = st.pc := hpc.trans rfl
    have hval2 : r'.value = none := hval.trans rfl
    have hfr2 : r'.first_revert = fbHitOf hf st op := hfr.trans rfl
    have hjr2 : r'.jump_revert = false := hjr.trans rfl
    have hfbtrue : hf = true → fbStrOf hf st op = st.fallbackHexstr := by
      intro hhf; subst hhf; simp [fbStrOf, fbHitOf_of_hasFallback]
    refine ⟨r', hpl, hpcr, ?_, hjr2, ?_, ?_, htr, ?_⟩
    · rw [hpc', consumedWidth, hval2]
      simp
    · intro u hu
      rw [hval2] at hu
      exact Option.noConfusion hu
    · intro hhf
      refine ⟨?_, by rw [hfb, hfbtrue hhf]⟩
      rw [hfr2]
      subst hhf
      exact fbHitOf_of_hasFallback st op
    · rintro ⟨hhf, hun⟩
      have hne : ∀ u, (stepRecord hf st s op).value = some u →
          u ≠ fbStrOf hf st op := by
        intro u hu
        exact Option.noConfusion hu
      exact ⟨hrm hne, by rw [hfb, hfbtrue hhf, hun]⟩


theorem walkLoop_inv (env : AstEnv) (bn : String → List ((Int × Int) × Bool))
    (hf : Bool) (I : WalkSt → Prop)
    (hstep : ∀ st s st', I st → walkStep env bn hf st s = .ok st' → I st') :
    ∀ sm st stF, I st → walkLoop env bn hf sm st = .ok stF → I stF := by
  intro sm
  induction sm with
  | nil => intro st stF hI h; simp only [walkLoop, Except.ok.injEq] at h; exact h ▸ hI
  | cons s rest ih =>
    intro st stF hI h
    unfold walkLoop at h
    rcases hs : walkStep env bn hf st s with e | st1
    · rw [hs] at h; exact Except.noConfusion h
    · rw [hs] at h
      exact ih st1 stF (hstep st s st1 hI hs) h


theorem consumedWidth_pos (r : InsRecord) : 1 ≤ consumedWidth r := by
  unfold consumedWidth; omega


theorem widthSum_append (l : List InsRecord) (r : InsRecord) :
    widthSum (l ++ [r]) = widthSum l + consumedWidth r := by
  simp [widthSum]


theorem widthSum_cons (a : InsRecord) (l : List InsRecord) :
    widthSum (a :: l) = consumedWidth a + widthSum l := by
  simp [widthSum]


theorem pcAligned_append_singleton (p : Nat) (l : List InsRecord) (r : InsRecord) :
    pcAligned p (l ++ [r]) ↔ pcAligned p l ∧ r.pc = p + widthSum l := by
  induction l generalizing p with
  | nil => simp [pcAligned, widthSum]
  | cons a rest ih =>
    have hiff := ih (p + consumedWidth a)
    constructor
    · rintro ⟨h1, h2⟩
      have h2b : pcAligned (p + consumedWidth a) (rest ++ [r]) := h2
      rw [hiff] at h2b
      refine ⟨⟨h1, h2b.1⟩, ?_⟩
      rw [h2b.2, widthSum_cons]
      omega
    · rintro ⟨⟨h1, h2⟩, h3⟩
      refine ⟨h1, ?_⟩
      show pcAligned (p + consumedWidth a) (rest ++ [r])
      rw [hiff]
      refine ⟨h2, ?_⟩
      rw [h3, widthSum_cons]
      omega


theorem pcAligned_chain (p : Nat) (l : List InsRecord) (h : pcAligned p l) :
    (l.map (·.pc)).Chain' (· < ·) := by
  induction l generalizing p with
  | nil => simp
  | cons a rest ih =>
    have ha : a.pc = p := h.1
    have hrest : pcAligned (p + consumedWidth a) rest := h.2
    rcases rest with _ | ⟨b, rest2⟩
    · simp
    · have hb : b.pc = p + consumedWidth a := hrest.1
      refine List.Chain'.cons ?_ (ih (p + consumedWidth a) hrest)
      show a.pc < b.pc
      rw [ha, hb]
      have := consumedWidth_pos a
      omega


theorem pcInv_init (opcodes : List String) (paths : List String)
    (stmts : String → List (Int × Int)) : PcInv (initWalkSt opcodes paths stmts) := by
  exact ⟨trivial, rfl⟩


theorem pcInv_step (env : AstEnv) (bn : String → List ((Int × Int) × Bool))
    (hf : Bool) (st : WalkSt) (s : SourceEntry) (st' : WalkSt)
    (hI : PcInv st) (h : walkStep env bn hf st s = .ok st') : PcInv st' := by
  obtain ⟨r', hpl, hpc, hpc', _⟩ := walkStep_ok_spec env bn hf st s st' h
  obtain ⟨hal, hsum⟩ := hI
  constructor
  · rw [hpl, pcAligned_append_singleton]
    refine ⟨hal, ?_⟩
    rw [hpc, hsum]
    omega
  · rw [hpl, widthSum_append, hpc', hsum]


theorem map_set_proj {γ : Type} (f : InsRecord → γ) (l : List InsRecord) (i : Nat)
    (r r' : InsRecord) (hget : l[i]? = some r) (hproj : f r' = f r) :
    (l.set i r').map f = l.map f := by
  induction l generalizing i with
  | nil => simp at hget
  | cons a rest ih =>
    cases i with
    | zero =>
      simp only [List.getElem?_cons_zero, Option.some.injEq] at hget
      subst hget
      simp [List.set, hproj]
    | succ j =>
      simp only [List.getElem?_cons_succ] at hget
      simp [List.set, ih j hget]


theorem applyRevertOffsets_map_projPC (offs : List (Int × Int))
    (pl : List InsRecord) (values : List Nat) (pl' : List InsRecord)
    (values' : List Nat)
    (h : applyRevertOffsets pl values offs = .ok (pl', values')) :
    pl'.map projPC = pl.map projPC := by
  induction offs generalizing pl values with
  | nil =>
    simp only [applyRevertOffsets, Except.ok.injEq, Prod.mk.injEq] at h
    rw [← h.1]
  | cons off rest ih =>
    unfold applyRevertOffsets at h
    split at h
    · exact ih pl values h
    · split at h
      · exact Except.noConfusion h
      · rename_i i vrest
        split at h
        · exact Except.noConfusion h
        · rename_i ri hget
          exact (ih _ _ h).trans
            (map_set_proj projPC pl i ri
              { ri with offset := some off, jump_revert := true } hget rfl)


theorem revertPass_map_projPC (env : AstEnv)
    (rm : List ((String × (Int × Int)) × List Nat))
    (pl pl' : List InsRecord) (h : revertPass env pl rm = .ok pl') :
    pl'.map projPC = pl.map projPC := by
  induction rm generalizing pl with
  | nil =>
    simp only [revertPass, Except.ok.injEq] at h
    rw [← h]
  | cons kv rest ih =>
    unfold revertPass at h
    split at h
    · exact Except.noConfusion h
    · split at h
      · exact Except.noConfusion h
      · rename_i offs _ x pl1 v1 happ
        rw [ih pl1 h, applyRevertOffsets_map_projPC _ pl kv.2 pl1 v1 happ]


theorem branchEntry_map_projB (bn : String → List ((Int × Int) × Bool))
    (path : String) (offset : Int × Int) (idx : Nat × Nat)
    (pl : List InsRecord) (bm) (count : Nat) (pl' : List InsRecord) (bm')
    (count' : Nat)
    (h : branchEntry bn path offset idx pl bm count = .ok (pl', bm', count')) :
    pl'.map projB = pl.map projB := by
  unfold branchEntry at h
  split at h
  · exact Except.noConfusion h
  rename_i r0 hget0
  split at h
  · simp only [Except.ok.injEq, Prod.mk.injEq] at h
    rw [← h.1]
  rename_i fn hfn
  split at h
  · exact Except.noConfusion h
  rename_i r1 hget1
  split at h
  · exact Except.noConfusion h
  rename_i nb hnb
  split at h
  · exact Except.noConfusion h
  rename_i fm hfm
  simp only [Except.ok.injEq, Prod.mk.injEq] at h
  rw [← h.1]
  exact (map_set_proj projB (pl.set idx.1 { r0 with branch := some count }) idx.2 r1
      { r1 with branch := some count } hget1 rfl).trans
    (map_set_proj projB pl idx.1 r0 { r0 with branch := some count } hget0 rfl)


theorem branchPass_map_projB (bn : String → List ((Int × Int) × Bool))
    (entries : List (String × ((Int × Int) × (Nat × Nat))))
    (pl : List InsRecord) (bm) (count : Nat) (pl' : List InsRecord) (bm')
    (count' : Nat)
    (h : branchPass bn entries pl bm count = .ok (pl', bm', count')) :
    pl'.map projB = pl.map projB := by
  induction entries generalizing pl bm count with
  | nil =>
    simp only [branchPass, Except.ok.injEq, Prod.mk.injEq] at h
    rw [← h.1]
  | cons e rest ih =>
    unfold branchPass at h
    split at h
    · exact Except.noConfusion h
    · rename_i x pl1 bm1 c1 hentry
      rw [ih pl1 bm1 c1 h, branchEntry_map_projB bn e.1 e.2.1 e.2.2 pl bm count
        pl1 bm1 c1 hentry]


theorem map_projPC_of_map_projB (l l' : List InsRecord)
    (h : l.map projB = l'.map projB) : l.map projPC = l'.map projPC := by
  have h2 := congrArg (List.map (fun t : Nat × String × Option String × Bool × Bool =>
    (t.1, t.2.1, t.2.2.1))) h
  simpa [List.map_map, Function.comp, projB, projPC] using h2


theorem pcAligned_of_map_projPC (p : Nat) (l l' : List InsRecord)
    (hm : l'.map projPC = l.map projPC) (h : pcAligned p l) : pcAligned p l' := by
  induction l generalizing p l' with
  | nil =>
    cases l' with
    | nil => exact trivial
    | cons a rest => simp [projPC] at hm
  | cons a rest ih =>
    cases l' with
    | nil => simp [projPC] at hm
    | cons b rest2 =>
      simp only [List.map_cons, List.cons.injEq] at hm
      have hpc : b.pc = a.pc := congrArg Prod.fst hm.1
      have hop : b.op = a.op := congrArg (fun t => t.2.1) hm.1
      have hv : b.value = a.value := congrArg (fun t => t.2.2) hm.1
      have hw : consumedWidth b = consumedWidth a := by
        unfold consumedWidth
        rw [hop, hv]
      exact ⟨hpc.trans h.1, hw ▸ ih (p + consumedWidth a) rest2 hm.2 h.2⟩


/-! ## Id and value bookkeeping for the nested coverage maps -/

/-- `l ++ [a]` is `a :: l` up to permutation. -/
theorem perm_append_one {γ : Type} (l : List γ) (a : γ) : (l ++ [a]).Perm (a :: l) :=
  List.perm_append_comm


theorem assocGet_mem [DecidableEq α] (l : List (α × β)) (k : α) (v : β)
    (h : assocGet l k = some v) : (k, v) ∈ l := by
  unfold assocGet at h
  rcases hf : l.find? (fun kv => decide (kv.1 = k)) with _ | a
  · rw [hf] at h; exact Option.noConfusion h
  · rw [hf] at h
    simp only [Option.map_some', Option.some.injEq] at h
    have hmem := List.mem_of_find?_eq_some hf
    have hk := List.find?_some hf
    simp only [decide_eq_true_eq] at hk
    have ha : a = (k, v) := by
      cases a; cases hk; cases h; rfl
    rwa [← ha]


theorem flatMap_assocSet_of_get_some [DecidableEq α] (F : β → List γ)
    (l : List (α × β)) (k : α) (old new : β) (x : γ)
    (hget : assocGet l k = some old) (hnew : (F new).Perm (x :: F old)) :
    ((assocSet l k new).flatMap (fun kv => F kv.2)).Perm
      (x :: l.flatMap (fun kv => F kv.2)) := by
  induction l with
  | nil => exact Option.noConfusion hget
  | cons kv rest ih =>
    rw [assocGet_cons] at hget
    by_cases he : kv.1 = k
    · rw [if_pos he] at hget
      simp only [Option.some.injEq] at hget
      subst hget
      simp only [assocSet, if_pos he, List.flatMap_cons]
      exact hnew.append_right _
    · rw [if_neg he] at hget
      simp only [assocSet, if_neg he, List.flatMap_cons]
      exact ((ih hget).append_left (F kv.2)).trans List.perm_middle


theorem flatMap_assocSet_of_get_none [DecidableEq α] (F : β → List γ)
    (l : List (α × β)) (k : α) (new : β) (hget : assocGet l k = none) :
    (assocSet l k new).flatMap (fun kv => F kv.2) =
      l.flatMap (fun kv => F kv.2) ++ F new := by
  induction l with
  | nil => simp [assocSet]
  | cons kv rest ih =>
    rw [assocGet_cons] at hget
    by_cases he : kv.1 = k
    · rw [if_pos he] at hget; exact Option.noConfusion hget
    · rw [if_neg he] at hget
      simp only [assocSet, if_neg he, List.flatMap_cons, ih hget, List.append_assoc]


theorem mem_flatMap_of_assocGet [DecidableEq α] (F : β → List γ)
    (l : List (α × β)) (k : α) (v : β) (x : γ)
    (hget : assocGet l k = some v) (hx : x ∈ F v) :
    x ∈ l.flatMap (fun kv => F kv.2) :=
  List.mem_flatMap.mpr ⟨(k, v), assocGet_mem l k v hget, hx⟩


theorem fmIds_record_perm {τ : Type} (fm : List (String × List (Nat × τ)))
    (f : String) (c : Nat) (so : τ) (hc : c ∉ fmIds fm) :
    (fmIds (assocSet fm f
      (assocSet ((assocGet fm f).getD []) c so))).Perm (c :: fmIds fm) := by
  rcases hg : assocGet fm f with _ | inner
  · simp only [Option.getD_none]
    have he : (assocSet fm f (assocSet [] c so)).flatMap
          (fun kv => kv.2.map Prod.fst) =
        fm.flatMap (fun kv => kv.2.map Prod.fst) ++ ((assocSet [] c so).map Prod.fst) :=
      flatMap_assocSet_of_get_none (fun b : List (Nat × τ) => b.map Prod.fst) fm f
        (assocSet [] c so) hg
    show ((assocSet fm f (assocSet [] c so)).flatMap
      (fun kv => kv.2.map Prod.fst)).Perm (c :: fmIds fm)
    rw [he]
    exact perm_append_one (fmIds fm) c
  · simp only [Option.getD_some]
    have hci : c ∉ inner.map Prod.fst := fun hm =>
      hc (mem_flatMap_of_assocGet (fun b : List (Nat × τ) => b.map Prod.fst) fm f inner c hg hm)
    have hset : assocSet inner c so = inner ++ [(c, so)] :=
      assocSet_of_not_mem_keys inner c so hci
    have hnewperm : ((assocSet inner c so).map Prod.fst).Perm
        (c :: inner.map Prod.fst) := by
      rw [hset, List.map_append]
      exact perm_append_one (inner.map Prod.fst) c
    exact flatMap_assocSet_of_get_some (fun b : List (Nat × τ) => b.map Prod.fst) fm f inner
      (assocSet inner c so) c hg hnewperm


theorem fmVals_record_perm {τ : Type} (fm : List (String × List (Nat × τ)))
    (f : String) (c : Nat) (so : τ) (hc : c ∉ fmIds fm) :
    (fmVals (assocSet fm f
      (assocSet ((assocGet fm f).getD []) c so))).Perm (so :: fmVals fm) := by
  rcases hg : assocGet fm f with _ | inner
  · simp only [Option.getD_none]
    have he : (assocSet fm f (assocSet [] c so)).flatMap
          (fun kv => kv.2.map Prod.snd) =
        fm.flatMap (fun kv => kv.2.map Prod.snd) ++ ((assocSet [] c so).map Prod.snd) :=
      flatMap_assocSet_of_get_none (fun b : List (Nat × τ) => b.map Prod.snd) fm f
        (assocSet [] c so) hg
    show ((assocSet fm f (assocSet [] c so)).flatMap
      (fun kv => kv.2.map Prod.snd)).Perm (so :: fmVals fm)
    rw [he]
    exact perm_append_one (fmVals fm) so
  · simp only [Option.getD_some]
    have hci : c ∉ inner.map Prod.fst := fun hm =>
      hc (mem_flatMap_of_assocGet (fun b : List (Nat × τ) => b.map Prod.fst) fm f inner c hg hm)
    have hset : assocSet inner c so = inner ++ [(c, so)] :=
      assocSet_of_not_mem_keys inner c so hci
    have hnewperm : ((assocSet inner c so).map Prod.snd).Perm
        (so :: inner.map Prod.snd) := by
      rw [hset, List.map_append]
      exact perm_append_one (inner.map Prod.snd) so
    exact flatMap_assocSet_of_get_some (fun b : List (Nat × τ) => b.map Prod.snd) fm f inner
      (assocSet inner c so) so hg hnewperm


theorem nmapIds_record_perm {τ : Type}
    (m : List (String × List (String × List (Nat × τ))))
    (p : String) (fm newFm : List (String × List (Nat × τ))) (c : Nat)
    (hg : assocGet m p = some fm) (hperm : (fmIds newFm).Perm (c :: fmIds fm)) :
    (nmapIds (assocSet m p newFm)).Perm (c :: nmapIds m) :=
  flatMap_assocSet_of_get_some (fun fmv => fmIds fmv) m p fm newFm c hg hperm


theorem count_not_in_fm {τ : Type} (m : List (String × List (String × List (Nat × τ))))
    (p : String) (fm : List (String × List (Nat × τ))) (c : Nat)
    (hg : assocGet m p = some fm) (hI : (nmapIds m).Perm (List.range c)) :
    c ∉ fmIds fm := fun hm => by
  have h1 : c ∈ nmapIds m :=
    mem_flatMap_of_assocGet (fun x => fmIds x) m p fm c hg hm
  have h2 := hI.mem_iff.mp h1
  simp [List.mem_range] at h2


theorem idInv_of_stmtTrans (a b : StmtState) (ht : StmtTrans a b) (hI : IdInv a) :
    IdInv b := by
  rcases ht with heq | ⟨path, stmts, so, f, hget, hso, hb1, hcase⟩
  · exact heq ▸ hI
  rcases hcase with ⟨h21, h22⟩ | ⟨fm, hfm, h21, h22⟩
  · unfold IdInv at hI ⊢
    rw [h21, h22]
    exact hI
  · unfold IdInv at hI ⊢
    rw [h21, h22]
    have hc := count_not_in_fm a.2.1 path fm a.2.2 hfm hI
    refine ((nmapIds_record_perm a.2.1 path fm _ a.2.2 hfm
      (fmIds_record_perm fm f a.2.2 so hc)).trans ?_)
    refine (hI.cons a.2.2).trans ?_
    rw [List.range_succ]
    exact (perm_append_one (List.range a.2.2) a.2.2).symm


theorem valInv_of_stmtTrans (a b : StmtState) (ht : StmtTrans a b)
    (hI : IdInv a) (hV : ValInv a) : ValInv b := by
  rcases ht with heq | ⟨path, stmts, so, f, hget, hso, hb1, hcase⟩
  · exact heq ▸ hV
  have hrem : (assocGet a.1 path).getD [] = stmts := by rw [hget]; rfl
  rcases hcase with ⟨h21, h22⟩ | ⟨fm, hfm, h21, h22⟩
  · intro p
    rw [h21, hb1]
    by_cases hp : p = path
    · subst hp
      rw [assocGet_assocSet_self]
      simp only [Option.getD_some]
      refine ⟨(hV p).1, ?_, ?_⟩
      · intro v hv hmem
        have hnot := (hV p).2.1 v hv
        rw [hrem] at hnot
        exact hnot (List.mem_of_mem_erase hmem)
      · have hnd := (hV p).2.2
        rw [hrem] at hnd
        exact hnd.erase so
    · rw [assocGet_assocSet_ne a.1 path p (stmts.erase so) hp]
      exact hV p
  · have hc := count_not_in_fm a.2.1 path fm a.2.2 hfm hI
    have hvals : pathVals a.2.1 path = fmVals fm := by
      unfold pathVals; rw [hfm]; rfl
    have hnewvals := fmVals_record_perm fm f a.2.2 so hc
    have hpv : pathVals (assocSet a.2.1 path
        (assocSet fm f (assocSet ((assocGet fm f).getD []) a.2.2 so))) path =
        fmVals (assocSet fm f (assocSet ((assocGet fm f).getD []) a.2.2 so)) := by
      unfold pathVals; rw [assocGet_assocSet_self]; rfl
    intro p
    rw [h21, hb1]
    by_cases hp : p = path
    · subst hp
      rw [hpv, assocGet_assocSet_self]
      simp only [Option.getD_some]
      refine ⟨?_, ?_, ?_⟩
      · rw [hnewvals.nodup_iff]
        refine List.nodup_cons.mpr ⟨?_, ?_⟩
        · intro hmem
          have hnot := (hV p).2.1 so (hvals ▸ hmem)
          rw [hrem] at hnot
          exact hnot hso
        · have hnd := (hV p).1
          rwa [hvals] at hnd
      · intro v hv hmem
        rcases List.mem_cons.mp (hnewvals.mem_iff.mp hv) with hv3 | hv3
        · subst hv3
          have hnd := (hV p).2.2
          rw [hrem] at hnd
          exact hnd.not_mem_erase hmem
        · have hnot := (hV p).2.1 v (hvals ▸ hv3)
          rw [hrem] at hnot
          exact hnot (List.mem_of_mem_erase hmem)
      · have hnd := (hV p).2.2
        rw [hrem] at hnd
        exact hnd.erase so
    · unfold pathVals
      rw [assocGet_assocSet_ne a.2.1 path p _ hp, assocGet_assocSet_ne a.1 path p _ hp]
      exact hV p


theorem assocGet_path_map {β : Type} (paths : List String) (g : String → β)
    (q : String) :
    assocGet (paths.map (fun p => (p, g p))) q =
      if q ∈ paths then some (g q) else none := by
  induction paths with
  | nil => simp [assocGet]
  | cons p rest ih =>
    rw [List.map_cons, assocGet_cons]
    by_cases hp : p = q
    · subst hp
      simp
    · have hq : (q ∈ p :: rest) = (q ∈ rest) := by
        simp only [List.mem_cons]
        exact propext ⟨fun h => h.elim (fun he => absurd he.symm hp) id, Or.inr⟩
      simp only [hp, if_false, ih, hq]


theorem nmapIds_path_map_nil {τ : Type} (paths : List String) :
    nmapIds (paths.map (fun p =>
      (p, ([] : List (String × List (Nat × τ)))))) = [] := by
  induction paths with
  | nil => rfl
  | cons p rest ih =>
    unfold nmapIds at ih ⊢
    simp [fmIds, ih]


theorem pathVals_path_map_nil {τ : Type} (paths : List String) (q : String) :
    pathVals (paths.map (fun p =>
      (p, ([] : List (String × List (Nat × τ)))))) q = [] := by
  unfold pathVals
  rw [assocGet_path_map]
  by_cases hq : q ∈ paths
  · simp [hq, fmVals]
  · simp [hq, fmVals]


theorem flagInv_step (env : AstEnv) (bn : String → List ((Int × Int) × Bool))
    (st : WalkSt) (s : SourceEntry) (st' : WalkSt) (hI : FlagInv st)
    (h : walkStep env bn true st s = .ok st') : FlagInv st' := by
  obtain ⟨r', hpl, hpc, hpc', hjr, hval, hhf, htr, hrm⟩ :=
    walkStep_ok_spec env bn true st s st' h
  obtain ⟨hfr, hfb⟩ := hhf rfl
  obtain ⟨hrm', hfb'⟩ := hrm ⟨rfl, hI.1⟩
  refine ⟨hfb', by rw [hrm']; exact hI.2.1, ?_⟩
  intro r hr
  rw [hpl] at hr
  rcases List.mem_append.mp hr with hmem | hmem
  · exact hI.2.2 r hmem
  · have hr' : r = r' := by simpa using hmem
    subst hr'
    exact ⟨hfr, hjr⟩


theorem branchEntry_ids (bn : String → List ((Int × Int) × Bool))
    (path : String) (offset : Int × Int) (idx : Nat × Nat)
    (pl : List InsRecord) (bm) (count : Nat) (pl' : List InsRecord) (bm')
    (count' : Nat)
    (h : branchEntry bn path offset idx pl bm count = .ok (pl', bm', count'))
    (hc : count ∉ nmapIds bm) :
    (bm' = bm ∧ count' = count) ∨
    ((nmapIds bm').Perm (count :: nmapIds bm) ∧ count' = count + 1) := by
  unfold branchEntry at h
  split at h
  · exact Except.noConfusion h
  rename_i r0 hget0
  split at h
  · simp only [Except.ok.injEq, Prod.mk.injEq] at h
    exact Or.inl ⟨h.2.1.symm, h.2.2.symm⟩
  rename_i fn hfn
  split at h
  · exact Except.noConfusion h
  rename_i r1 hget1
  split at h
  · exact Except.noConfusion h
  rename_i nb hnb
  split at h
  · exact Except.noConfusion h
  rename_i fm hfm
  simp only [Except.ok.injEq, Prod.mk.injEq] at h
  refine Or.inr ⟨?_, h.2.2.symm⟩
  rw [← h.2.1]
  have hcfm : count ∉ fmIds fm := fun hm =>
    hc (mem_flatMap_of_assocGet (fun x => fmIds x) bm path fm count hfm hm)
  exact nmapIds_record_perm bm path fm _ count hfm
    (fmIds_record_perm fm fn count (offset.1, offset.2, nb.2) hcfm)


theorem branchPass_ids (bn : String → List ((Int × Int) × Bool))
    (entries : List (String × ((Int × Int) × (Nat × Nat)))) :
    ∀ pl bm count pl' bm' count',
    branchPass bn entries pl bm count = .ok (pl', bm', count') →
    (∀ i ∈ nmapIds bm, i < count) →
    count ≤ count' ∧
      (nmapIds bm').Perm (nmapIds bm ++ List.range' count (count' - count)) := by
  induction entries with
  | nil =>
    intro pl bm count pl' bm' count' h hlt
    simp only [branchPass, Except.ok.injEq, Prod.mk.injEq] at h
    rw [← h.2.1, ← h.2.2]
    simp
  | cons e rest ih =>
    intro pl bm count pl' bm' count' h hlt
    unfold branchPass at h
    split at h
    · exact Except.noConfusion h
    rename_i x pl1 bm1 c1 hentry
    have hc : count ∉ nmapIds bm := fun hm => absurd (hlt _ hm) (lt_irrefl count)
    rcases branchEntry_ids bn e.1 e.2.1 e.2.2 pl bm count pl1 bm1 c1 hentry hc with
      ⟨hbm, hcnt⟩ | ⟨hperm, hcnt⟩
    · rw [hbm, hcnt] at h
      exact ih pl1 bm count pl' bm' count' h hlt
    · rw [hcnt] at h
      have hlt1 : ∀ i ∈ nmapIds bm1, i < count + 1 := fun i hi => by
        rcases List.mem_cons.mp (hperm.mem_iff.mp hi) with h1 | h1
        · omega
        · exact Nat.lt_succ_of_lt (hlt i h1)
      obtain ⟨hle, hperm2⟩ := ih pl1 bm1 (count + 1) pl' bm' count' h hlt1
      refine ⟨by omega, ?_⟩
      have hr : List.range' count (count' - count) =
          count :: List.range' (count + 1) (count' - (count + 1)) := by
        have he : count' - count = (count' - (count + 1)) + 1 := by omega
        rw [he, List.range'_succ]
      rw [hr]
      refine hperm2.trans ?_
      exact (hperm.append_right (List.range' (count + 1) (count' - (count + 1)))).trans
        List.perm_middle.symm


theorem gcd_ok_decomp (env : AstEnv) (bn : String → List ((Int × Int) × Bool))
    (paths : List String) (stmts : String → List (Int × Int)) (hf : Bool)
    (sm : List SourceEntry) (ops : List String) (res : CoverageResult)
    (h : generate_coverage_data env bn paths stmts hf sm ops = .ok res) :
    ∃ st pl pl2 bm count2,
      walkLoop env bn hf sm (initWalkSt ops paths stmts) = .ok st ∧
      revertPass env st.pcList st.revertMap = .ok pl ∧
      branchPass bn (st.branchSet.flatMap (fun pv => pv.2.map (fun ov => (pv.1, ov))))
        pl (paths.map (fun p => (p, []))) st.count = .ok (pl2, bm, count2) ∧
      res = { pcList := pl2, statementMap := st.statementMap, branchMap := bm,
              revertMap := st.revertMap, count := count2,
              fallbackHexstr := st.fallbackHexstr } := by
  unfold generate_coverage_data at h
  split at h
  · exact Except.noConfusion h
  rename_i st hwalk
  split at h
  · exact Except.noConfusion h
  rename_i pl hrp
  split at h
  · exact Except.noConfusion h
  rename_i x pl2 bm count2 hbp
  simp only [Except.ok.injEq] at h
  exact ⟨st, pl, pl2, bm, count2, hwalk, hrp, hbp, h.symm⟩


theorem map_projFlags_of_map_projB (l l' : List InsRecord)
    (h : l.map projB = l'.map projB) : l.map projFlags = l'.map projFlags := by
  have h2 := congrArg (List.map (fun t : Nat × String × Option String × Bool × Bool =>
    (t.2.2.2.1, t.2.2.2.2))) h
  simpa [List.map_map, Function.comp, projB, projFlags] using h2


theorem flags_false_of_map_projFlags (l l' : List InsRecord)
    (h : l'.map projFlags = l.map projFlags)
    (hl : ∀ r ∈ l, r.first_revert = false ∧ r.jump_revert = false) :
    ∀ r ∈ l', r.first_revert = false ∧ r.jump_revert = false := by
  intro r hr
  have hmem : projFlags r ∈ l'.map projFlags := List.mem_map_of_mem _ hr
  rw [h] at hmem
  obtain ⟨r0, hr0, heq⟩ := List.mem_map.mp hmem
  obtain ⟨h1, h2⟩ := hl r0 hr0
  simp only [projFlags, Prod.mk.injEq] at heq
  exact ⟨heq.1 ▸ h1, heq.2 ▸ h2⟩


/-! ## The claims -/

/-- C1: in the instruction record list produced by the walker, pc values
start at 0 and each record's pc is the previous pc plus that record's
consumed byte width (1, plus the PUSH immediate's byte width from the
mnemonic's numeric suffix when the record carries a value); the pc map's
keys are exactly those running sums, and they are strictly increasing. -/
theorem C1_pc_running_sum (env : AstEnv) (bn : String → List ((Int × Int) × Bool))
    (paths : List String) (stmts : String → List (Int × Int)) (hf : Bool)
    (sm : List SourceEntry) (ops : List String) (res : CoverageResult)
    (h : generate_coverage_data env bn paths stmts hf sm ops = .ok res) :
    pcAligned 0 res.pcList ∧
    (pcMapOf res).map Prod.fst = res.pcList.map (fun r => r.pc) ∧
    ((pcMapOf res).map Prod.fst).Chain' (· < ·) := by
  obtain ⟨st, pl, pl2, bm, c2, hwalk, hrp, hbp, hres⟩ :=
    gcd_ok_decomp env bn paths stmts hf sm ops res h
  have hinv : PcInv st :=
    walkLoop_inv env bn hf PcInv (fun a s b hI hs => pcInv_step env bn hf a s b hI hs)
      sm (initWalkSt ops paths stmts) st (pcInv_init ops paths stmts) hwalk
  have h1 : pl.map projPC = st.pcList.map projPC :=
    revertPass_map_projPC env st.revertMap st.pcList pl hrp
  have hB : pl2.map projB = pl.map projB :=
    branchPass_map_projB bn _ pl _ st.count pl2 bm c2 hbp
  have hal : pcAligned 0 pl2 :=
    pcAligned_of_map_projPC 0 st.pcList pl2
      ((map_projPC_of_map_projB pl2 pl hB).trans h1) hinv.1
  have hres_pl : res.pcList = pl2 := by rw [hres]
  have hkeys : (pcMapOf res).map Prod.fst = res.pcList.map (fun r => r.pc) := by
    unfold pcMapOf
    rw [List.map_map]
    rfl
  refine ⟨?_, hkeys, ?_⟩
  · rw [hres_pl]
    exact hal
  · rw [hkeys, hres_pl]
    exact pcAligned_chain 0 pl2 hal


/-- C2: statement ids and branch ids are drawn from one shared counter
starting at 0: the ids recorded across the statement map and the branch map
together are a permutation of `0 .. count-1` (a contiguous run with no
repeats), and every statement id is numerically below every branch id. -/
theorem C2_shared_id_counter (env : AstEnv) (bn : String → List ((Int × Int) × Bool))
    (paths : List String) (stmts : String → List (Int × Int)) (hf : Bool)
    (sm : List SourceEntry) (ops : List String) (res : CoverageResult)
    (h : generate_coverage_data env bn paths stmts hf sm ops = .ok res) :
    (nmapIds res.statementMap ++ nmapIds res.branchMap).Perm
      (List.range res.count) ∧
    ∀ i ∈ nmapIds res.statementMap, ∀ j ∈ nmapIds res.branchMap, i < j := by
  obtain ⟨st, pl, pl2, bm, c2, hwalk, hrp, hbp, hres⟩ :=
    gcd_ok_decomp env bn paths stmts hf sm ops res h
  have hstmt : (nmapIds st.statementMap).Perm (List.range st.count) :=
    walkLoop_inv env bn hf
      (fun w => IdInv (w.stmtNodes, w.statementMap, w.count))
      (fun a s b hI hs => by
        obtain ⟨r', _, _, _, _, _, _, htr, _⟩ := walkStep_ok_spec env bn hf a s b hs
        exact idInv_of_stmtTrans _ _ htr hI)
      sm (initWalkSt ops paths stmts) st
      (by unfold IdInv; simp only [initWalkSt]; rw [nmapIds_path_map_nil]; rfl) hwalk
  obtain ⟨hle, hperm⟩ := branchPass_ids bn
    (st.branchSet.flatMap (fun pv => pv.2.map (fun ov => (pv.1, ov))))
    pl (paths.map (fun p => (p, []))) st.count pl2 bm c2 hbp
    (by rw [nmapIds_path_map_nil]; intro i hi; cases hi)
  have hbr : (nmapIds bm).Perm (List.range' st.count (c2 - st.count)) := by
    rw [nmapIds_path_map_nil] at hperm
    simpa using hperm
  have hres1 : res.statementMap = st.statementMap := by rw [hres]
  have hres2 : res.branchMap = bm := by rw [hres]
  have hres3 : res.count = c2 := by rw [hres]
  obtain ⟨k, hk⟩ : ∃ k, c2 = st.count + k := ⟨c2 - st.count, by omega⟩
  subst hk
  have hk2 : st.count + k - st.count = k := by omega
  rw [hk2] at hbr
  constructor
  · rw [hres1, hres2, hres3]
    refine (hstmt.append hbr).trans ?_
    have ha : List.range st.count ++ List.range' st.count k =
        List.range (st.count + k) := by
      rw [List.range_eq_range', List.range_eq_range', Nat.add_comm st.count k]
      have hap := List.range'_append 0 st.count k 1
      simpa using hap
    rw [ha]
  · rw [hres1, hres2]
    intro i hi j hj
    have hi2 : i < st.count := by
      have hm := hstmt.mem_iff.mp hi
      simpa [List.mem_range] using hm
    have hj2 : st.count ≤ j := by
      have hm := hbr.mem_iff.mp hj
      rw [List.mem_range'_1] at hm
      exact hm.1
    omega


/-- C7: statement attribution is consume-once: a statement offset is removed
from the path's statement set when first matched and never recorded for a
second statement id, so the offsets recorded for one path (its statement
sets being duplicate-free) are pairwise distinct across its statement ids. -/
theorem C7_consume_once (env : AstEnv) (bn : String → List ((Int × Int) × Bool))
    (paths : List String) (stmts : String → List (Int × Int)) (hf : Bool)
    (sm : List SourceEntry) (ops : List String) (res : CoverageResult)
    (hnd : ∀ p, (stmts p).Nodup)
    (h : generate_coverage_data env bn paths stmts hf sm ops = .ok res)
    (p : String) :
    (pathVals res.statementMap p).Nodup := by
  obtain ⟨st, pl, pl2, bm, c2, hwalk, hrp, hbp, hres⟩ :=
    gcd_ok_decomp env bn paths stmts hf sm ops res h
  have hinv : IdInv (st.stmtNodes, st.statementMap, st.count) ∧
      ValInv (st.stmtNodes, st.statementMap, st.count) :=
    walkLoop_inv env bn hf
      (fun w => IdInv (w.stmtNodes, w.statementMap, w.count) ∧
        ValInv (w.stmtNodes, w.statementMap, w.count))
      (fun a s b hI hs => by
        obtain ⟨r', _, _, _, _, _, _, htr, _⟩ := walkStep_ok_spec env bn hf a s b hs
        exact ⟨idInv_of_stmtTrans _ _ htr hI.1,
               valInv_of_stmtTrans _ _ htr hI.1 hI.2⟩)
      sm (initWalkSt ops paths stmts) st
      (by
        constructor
        · unfold IdInv; simp only [initWalkSt]; rw [nmapIds_path_map_nil]; rfl
        · intro q
          refine ⟨?_, ?_, ?_⟩
          · simp only [initWalkSt]
            rw [pathVals_path_map_nil]
            exact List.nodup_nil
          · intro v hv
            simp only [initWalkSt] at hv
            rw [pathVals_path_map_nil] at hv
            cases hv
          · simp only [initWalkSt]
            rw [assocGet_path_map]
            by_cases hq : q ∈ paths
            · simpa [hq] using hnd q
            · simp [hq])
      hwalk
  have hres1 : res.statementMap = st.statementMap := by rw [hres]
  rw [hres1]
  exact (hinv.2 p).1


/-- C10: a walk invoked with `has_fallback = True` never runs the
fallback-revert detection: no record is marked `first_revert` or
`jump_revert`, no revert-map candidate is collected, and the shared
fallback-revert address string stays unassigned. -/
theorem C10_has_fallback_disables_revert_detection (env : AstEnv)
    (bn : String → List ((Int × Int) × Bool)) (paths : List String)
    (stmts : String → List (Int × Int)) (sm : List SourceEntry)
    (ops : List String) (res : CoverageResult)
    (h : generate_coverage_data env bn paths stmts true sm ops = .ok res) :
    (∀ r ∈ res.pcList, r.first_revert = false ∧ r.jump_revert = false) ∧
    res.revertMap = [] ∧ res.fallbackHexstr = "unassigned" := by
  obtain ⟨st, pl, pl2, bm, c2, hwalk, hrp, hbp, hres⟩ :=
    gcd_ok_decomp env bn paths stmts true sm ops res h
  have hF : FlagInv st :=
    walkLoop_inv env bn true FlagInv
      (fun a s b hI hs => flagInv_step env bn a s b hI hs)
      sm (initWalkSt ops paths stmts) st
      ⟨rfl, rfl, fun r hr => absurd hr (List.not_mem_nil r)⟩ hwalk
  have hpl : pl = st.pcList := by
    rw [hF.2.1] at hrp
    simp only [revertPass, Except.ok.injEq] at hrp
    exact hrp.symm
  have hflags2 : ∀ r ∈ pl2, r.first_revert = false ∧ r.jump_revert = false := by
    refine flags_false_of_map_projFlags st.pcList pl2 ?_ hF.2.2
    have hB : pl2.map projB = pl.map projB :=
      branchPass_map_projB bn _ pl _ st.count pl2 bm c2 hbp
    have hfl := map_projFlags_of_map_projB pl2 pl hB
    rw [hfl, hpl]
  refine ⟨?_, ?_, ?_⟩
  · rw [show res.pcList = pl2 by rw [hres]]
    exact hflags2
  · rw [hres]
    exact hF.2.1
  · rw [hres]
    exact hF.1


/-- C3 (corrected): on the scenario source map and opcodes the full walk does
not yield 4 pc-map entries: the peek of `opcodes[0]` after the final pop
raises an uncaught IndexError.  On the first two source-map entries the walk
produces the PUSH1/JUMPI records, and the JUMPI merely activates the
pre-registered branch candidate at offset 10 without finalizing a branch id. -/
theorem C3_scenario_status :
    generate_coverage_data_str env3 bn3 ["a.sol"] (fun _ => []) false c3srcmap c3opcodes
      = .error "IndexError: deque index out of range" ∧
    ∃ st, walkLoop env3 bn3 false ((expand_source_map c3srcmap).take 2)
        (initWalkSt (pySplit c3opcodes ' ') ["a.sol"] (fun _ => [])) = .ok st ∧
      st.pcList.map (fun r => (r.op, r.pc)) = [("PUSH1", 0), ("JUMPI", 2)] ∧
      assocGet st.branchActive "a.sol" = some [((10, 15), 1)] ∧
      assocGet st.branchSet "a.sol" = some [] :=
  ⟨rfl, _, rfl, rfl, rfl, rfl⟩


/-- The C3 scenario input refutes the claimed outcome: the run raises instead
of producing a pc map. -/
theorem C3_counterexample :
    generate_coverage_data_str env3 bn3 ["a.sol"] (fun _ => []) false c3srcmap c3opcodes
      = .error "IndexError: deque index out of range" := rfl


/-- C4 (corrected): `require(a && b)` decomposes into exactly the two leaves,
but the left operand `a` gets polarity `false` (the `&&`/`||` override rule
yields `operator == "||"`, which is `False` for `&&`); only the rightmost
leaf `b` keeps the require polarity `true`. -/
theorem C4_require_and_polarity :
    get_recursive_branches c4base = [(c4a, false), (c4b, true)] := rfl


/-- Concrete refutation of the claimed polarity for the left leaf of
`require(a && b)`. -/
theorem C4_counterexample :
    (c4a, false) ∈ get_recursive_branches c4base ∧
    (c4a, true) ∉ get_recursive_branches c4base := by decide


/-- The C5 scenario surfaces as an error: one recorded forwarded-revert
candidate against two argument-less revert calls raises an uncaught
IndexError inside the reconciliation post-pass. -/
theorem C5_counterexample :
    generate_coverage_data env5 (fun _ => []) ["c.sol"] (fun _ => []) false sm5 ops5
      = .error "IndexError: list index out of range" := rfl


/-- C5 (corrected): with one candidate index recorded and two unmatched
revert-call offsets, the first offset in source order claims the candidate
(that record gets the offset and `jump_revert`), but the second offset then
raises IndexError on the exhausted candidate list instead of being skipped. -/
theorem C5_single_candidate_two_reverts (pl : List InsRecord) (i : Nat)
    (ri : InsRecord) (o1 o2 : Int × Int) (hne : o1 ≠ o2)
    (h1 : ∀ r ∈ pl, r.offset ≠ some o1) (h2 : ∀ r ∈ pl, r.offset ≠ some o2)
    (hget : pl[i]? = some ri) :
    applyRevertOffsets pl [i] [o1] =
      .ok (pl.set i { ri with offset := some o1, jump_revert := true }, []) ∧
    applyRevertOffsets pl [i] [o1, o2] = .error "IndexError: list index out of range" := by
  have hany1 : (pl.any fun x => decide (x.offset = some o1)) = false := by
    rw [List.any_eq_false]
    intro x hx
    simpa using h1 x hx
  have hany2 : ((pl.set i { ri with offset := some o1, jump_revert := true }).any
      fun x => decide (x.offset = some o2)) = false := by
    rw [List.any_eq_false]
    intro x hx
    rcases List.mem_or_eq_of_mem_set hx with hx2 | hx2
    · simpa using h2 x hx2
    · subst hx2
      simp [hne]
  constructor
  · simp only [applyRevertOffsets, hany1, Bool.false_eq_true, if_false, hget]
  · simp only [applyRevertOffsets, hany1, hany2, Bool.false_eq_true, if_false, hget]


/-- The nonpayable-guard heuristic fails the walk outright on a two-opcode
contract whose first record is an unattributable REVERT. -/
theorem C6_counterexample :
    generate_coverage_data envT (fun _ => []) ["p.sol"] (fun _ => []) false [sC6]
      ["REVERT", "STOP"] = .error "IndexError: list index out of range" := rfl


/-- C6 (corrected): a REVERT with file index -1 among the first 7 records
does not complete the iteration: the `pc_list[-8]` lookback raises an
uncaught IndexError, so the step yields no successor state. -/
theorem C6_short_lookback_raises (env : AstEnv) (bn : String → List ((Int × Int) × Bool))
    (hf : Bool) (st : WalkSt) (s : SourceEntry)
    (hlen : st.pcList.length < 7) (hfile : s.file = -1)
    (hop : st.opcodes.head? = some "REVERT") :
    (walkStep env bn hf st s).toOption = none := by
  have hpy : pyGet st.pcList (-7) = none := by
    show (if ((-7 : Int)) < 0 then
        if ((st.pcList.length : Int) + (-7)) < 0 then none
        else st.pcList[((st.pcList.length : Int) + (-7)).toNat]?
      else st.pcList[((-7 : Int)).toNat]?) = none
    rw [if_pos (by decide), if_pos (by omega)]
  rcases hops : st.opcodes with _ | ⟨op, ops1⟩
  · unfold walkStep
    rw [hops]
    rfl
  · have hopv : op = "REVERT" := by
      rw [hops] at hop
      simpa using hop
    subst hopv
    unfold walkStep
    rw [hops]
    rcases ops1 with _ | ⟨v, ops2⟩
    · rfl
    · show (if v.take 2 = "0x" then
          match pyIntDec ("REVERT".drop 4) with
          | none => (Except.error "ValueError: invalid literal for int" : Except String WalkSt)
          | some w =>
            finishStep env bn st s
              { stepRecord hf st s "REVERT" with value := some v }
              ops2 (st.pc + 1 + w) (fbStrOf hf st "REVERT")
        else
          finishStep env bn st s (stepRecord hf st s "REVERT") (v :: ops2) (st.pc + 1)
            (fbStrOf hf st "REVERT")).toOption = none
      by_cases hhex : v.take 2 = "0x"
      · rw [if_pos hhex]
        rfl
      · rw [if_neg hhex]
        unfold finishStep
        rw [if_pos hfile,
          if_pos (show (stepRecord hf st s "REVERT").op = "REVERT" from rfl), hpy]
        rfl


/-- C8 (corrected): for an in-bounds link reference the normalization
overwrites exactly the 40 characters at string index `2 * byte-offset` with
two underscores, the symbol name truncated and RIGHT-padded with underscores
to 36 characters, and two underscores, preserving the length and every
character outside that window. -/
theorem C8_placeholder_window (bc n : List Char) (loc : Nat)
    (h : 2 * loc + 40 ≤ bc.length) :
    format_link_references bc [(n, [loc])] =
      bc.take (2 * loc) ++
        (['_', '_'] ++ (n.take 36 ++ List.replicate (36 - (n.take 36).length) '_')
          ++ ['_', '_']) ++ bc.drop (2 * loc + 40) ∧
    (format_link_references bc [(n, [loc])]).length = bc.length ∧
    ∀ j, j < 2 * loc ∨ 2 * loc + 40 ≤ j →
      (format_link_references bc [(n, [loc])])[j]? = bc[j]? := by
  have he : format_link_references bc [(n, [loc])] = writeRef bc n (loc * 2) := rfl
  refine ⟨?_, ?_, ?_⟩
  · rw [he, Nat.mul_comm loc 2]
    rfl
  · rw [he]
    exact writeRef_length bc n (loc * 2) (by omega)
  · intro j hj
    rw [he, writeRef_getElem? bc n (loc * 2) (by omega) j]
    rcases hj with hj | hj
    · rw [if_pos (by omega)]
    · rw [if_neg (by omega), if_neg (by omega)]


/-- The claimed LEFT-padded placeholder disagrees with the written one on a
short symbol name. -/
theorem C8_counterexample :
    format_link_references c8bc [(c8name, [1])] ≠
      c8bc.take 2 ++ placeholderClaim c8name ++ c8bc.drop 42 := by decide


/-- C9: normalization is idempotent: re-running it with the same in-bounds
link references on an already-normalized bytecode string is a no-op. -/
theorem C9_relinking_idempotent (bc : List Char) (refs : List (List Char × List Nat))
    (h : ∀ r ∈ refs, ∀ loc ∈ r.2, loc * 2 + 40 ≤ bc.length) :
    format_link_references (format_link_references bc refs) refs =
      format_link_references bc refs := by
  simp only [format_link_references_eq_foldRefs]
  apply foldRefs_idempotent
  intro nl hnl
  simp only [List.mem_flatMap, List.mem_map] at hnl
  obtain ⟨r, hr, loc, hloc, heq⟩ := hnl
  rw [← heq]
  exact h r hr loc hloc


/-! ## Witnesses: the theorems with hypotheses applied at concrete inputs -/

theorem C1_witness :
    pcAligned 0 covW.pcList ∧
    (pcMapOf covW).map Prod.fst = covW.pcList.map (fun r => r.pc) ∧
    ((pcMapOf covW).map Prod.fst).Chain' (· < ·) :=
  C1_pc_running_sum envW bnW ["s.sol"] stmtsW false smW opsW covW rfl


theorem C2_witness :
    (nmapIds covW.statementMap ++ nmapIds covW.branchMap).Perm
      (List.range covW.count) ∧
    ∀ i ∈ nmapIds covW.statementMap, ∀ j ∈ nmapIds covW.branchMap, i < j :=
  C2_shared_id_counter envW bnW ["s.sol"] stmtsW false smW opsW covW rfl


theorem C5_witness :
    applyRevertOffsets pl5w [1] [(20, 28)] =
      .ok (pl5w.set 1 { ({ op := "JUMP", pc := 1 } : InsRecord) with
            offset := some ((20 : Int), (28 : Int)), jump_revert := true }, []) ∧
    applyRevertOffsets pl5w [1] [(20, 28), (30, 38)] =
      .error "IndexError: list index out of range" :=
  C5_single_candidate_two_reverts pl5w 1 { op := "JUMP", pc := 1 } (20, 28) (30, 38)
    (by decide) (by decide) (by decide) rfl


theorem C6_witness : (walkStep envT (fun _ => []) false stC6 sC6).toOption = none :=
  C6_short_lookback_raises envT (fun _ => []) false stC6 sC6 (by decide) (by decide)
    (by decide)


theorem C7_witness : (pathVals covW.statementMap "s.sol").Nodup :=
  C7_consume_once envW bnW ["s.sol"] stmtsW false smW opsW covW
    (fun p => by unfold stmtsW; split <;> simp) rfl "s.sol"


theorem C8_witness :
    format_link_references c8bc [(c8name, [1])] =
      c8bc.take (2 * 1) ++
        (['_', '_'] ++ (c8name.take 36 ++
          List.replicate (36 - (c8name.take 36).length) '_') ++ ['_', '_'])
        ++ c8bc.drop (2 * 1 + 40) ∧
    (format_link_references c8bc [(c8name, [1])]).length = c8bc.length ∧
    ∀ j, j < 2 * 1 ∨ 2 * 1 + 40 ≤ j →
      (format_link_references c8bc [(c8name, [1])])[j]? = c8bc[j]? :=
  C8_placeholder_window c8bc c8name 1 (by decide)


theorem C9_witness :
    format_link_references (format_link_references c8bc [(c8name, [0])]) [(c8name, [0])] =
      format_link_references c8bc [(c8name, [0])] :=
  C9_relinking_idempotent c8bc [(c8name, [0])] (by decide)


theorem C10_witness :
    (∀ r ∈ covW10.pcList, r.first_revert = false ∧ r.jump_revert = false) ∧
    covW10.revertMap = [] ∧ covW10.fallbackHexstr = "unassigned" :=
  C10_has_fallback_disables_revert_detection envW bnW ["s.sol"] stmtsW smW opsW covW10 rfl
